import Mathlib

set_option maxRecDepth 8192

/-!
Verification of the CoEnv core (lexer / inference / reconciler) against its
specification.  The only executable source shipped in the repository is
`analysis/inference_cython_example.pyx` (entropy computation and secret
detection); those functions are translated directly.  The lexer
(`core/lexer.py`), the classifier/placeholder generator
(`core/inference.py`) and the reconciler (`core/syncer.py`) are referenced
by the documentation but their code is not part of the source tree, so the
corresponding definitions below are modelled from the specification text
(each such definition says so in its doc comment).

Strings are modelled as `List Char`; real-valued entropy uses `Real.logb`.
The file is organized as: all definitions first, then all theorems.
-/

namespace CoEnv

/-! ## Definitions: lexer / printer.

Modelled from the spec: `core/lexer.py` is absent from the source tree; the
token model and the parsing rules below follow the specification text
(sections 3 and 4.1): per physical line, a line whose first non-whitespace
character is `#` is a comment, an all-whitespace line is blank, a line
matching `[export ]?KEY=VALUE` (identifier key, optional quoting that is
detected and stripped while the quote character is retained) is a key/value
pair, and anything else is an opaque passthrough token.  Each token stores
its own line terminator (`"\n"`, `"\r\n"` or nothing for a final line
without newline).  Directive comments (tombstone / graveyard / exclude
markers) serialize as their literal comment text, so they are carried by
the `comment` constructor; the reconciler below works on the index level
(`ParsedFile`) and does not re-read them from tokens. -/

inductive QuoteStyle where
  | noQuote
  | single
  | double
deriving DecidableEq, Repr

inductive Token where
  | blankLine (ws : List Char) (term : List Char)
  | comment (text : List Char) (term : List Char)
  | keyValue (hasExport : Bool) (key : List Char) (quote : QuoteStyle)
      (value : List Char) (term : List Char)
  | passthrough (text : List Char) (term : List Char)
deriving DecidableEq, Repr

def exportMarker : List Char := "export ".data

def isSpaceChar (c : Char) : Bool := c = ' ' || c = '\t' || c = '\r'

def isIdentChar (c : Char) : Bool := c.isAlphanum || c = '_'

/-- Quote detection: a value that starts and ends with a matching quote
character has the quote stripped for the logical value while the style is
remembered for reprinting. -/
def detectQuote (r : List Char) : QuoteStyle × List Char :=
  match r with
  | [] => (.noQuote, [])
  | c :: rest =>
    if c = '\'' ∧ rest.getLast? = some '\'' then (.single, rest.dropLast)
    else if c = '"' ∧ rest.getLast? = some '"' then (.double, rest.dropLast)
    else (.noQuote, c :: rest)

def wrapQuote : QuoteStyle → List Char → List Char
  | .noQuote, v => v
  | .single, v => '\'' :: (v ++ ['\''])
  | .double, v => '"' :: (v ++ ['"'])

/-- Read `KEY=VALUE` (identifier key, quote detection on the value). -/
def parseKVCore (rest : List Char) : Option (List Char × QuoteStyle × List Char) :=
  let key := rest.takeWhile isIdentChar
  let rest2 := rest.dropWhile isIdentChar
  if key = [] then none
  else
    match rest2 with
    | '=' :: valRaw => some (key, (detectQuote valRaw).1, (detectQuote valRaw).2)
    | _ => none

/-- Try to read `[export ]?KEY=VALUE` from a line (without its terminator). -/
def parseKV (l : List Char) : Option (Bool × List Char × QuoteStyle × List Char) :=
  if exportMarker.isPrefixOf l then
    (parseKVCore (l.drop exportMarker.length)).map fun r => (true, r)
  else
    (parseKVCore l).map fun r => (false, r)

/-- Classify one physical line (content, terminator) into a token. -/
def parseLine (content : List Char) (term : List Char) : Token :=
  if content.all isSpaceChar then .blankLine content term
  else if (content.dropWhile isSpaceChar).head? = some '#' then .comment content term
  else
    match parseKV content with
    | some (e, k, q, v) => .keyValue e k q v term
    | none => .passthrough content term

/-- Split off one physical line: returns (content, terminator, rest).
The terminator is `"\n"`, `"\r\n"`, or empty for a final unterminated line. -/
def takeLine : List Char → List Char × List Char × List Char
  | [] => ([], [], [])
  | c :: cs =>
    if c = '\n' then ([], ['\n'], cs)
    else if c = '\r' ∧ cs.head? = some '\n' then ([], ['\r', '\n'], cs.tail)
    else
      let p := takeLine cs
      (c :: p.1, p.2.1, p.2.2)

/-- Fuel-indexed line splitter.  Each line consumes at least one character,
so `fuel = s.length` always suffices (see `splitLines`); the fuel only
makes the recursion structural. -/
def splitLinesFuel : ℕ → List Char → List (List Char × List Char)
  | 0, _ => []
  | _ + 1, [] => []
  | n + 1, c :: cs =>
    ((takeLine (c :: cs)).1, (takeLine (c :: cs)).2.1) ::
      splitLinesFuel n (takeLine (c :: cs)).2.2

/-- Split a text into physical lines, each with its terminator. -/
def splitLines (s : List Char) : List (List Char × List Char) :=
  splitLinesFuel s.length s

/-- `parse` never fails: every input string yields a token list (spec 4.1:
total function, unrecognized lines become passthrough tokens). -/
def parse (s : List Char) : List Token :=
  (splitLines s).map fun p => parseLine p.1 p.2

/-- Exact serialization of one token. -/
def printToken : Token → List Char
  | .blankLine ws term => ws ++ term
  | .comment text term => text ++ term
  | .keyValue e k q v term =>
    (if e then exportMarker else []) ++ k ++ '=' :: (wrapQuote q v ++ term)
  | .passthrough text term => text ++ term

/-- `print` is the concatenation of each token's exact serialization. -/
def printTokens (ts : List Token) : List Char :=
  (ts.map printToken).flatten

/-! ## Definitions: inference engine (entropy and secret detection).

`calculate_entropy_cython`, `is_secret_cython` and
`calculate_entropy_optimized` are translated from
`analysis/inference_cython_example.pyx`, the one executable source file of
the repository.  Machine doubles are modelled as exact reals; summation
order (Python dict insertion order versus index order) is immaterial since
real addition is commutative, so the dict of character frequencies is
rendered as a sum over `v.dedup`.  In `calculate_entropy_optimized` the
C frequency table is declared `unsigned char[256]`, so each slot holds its
count modulo 2^8, and the index is `ord(value[i])` cast to `unsigned
char`, i.e. the code point modulo 2^8; both truncations are kept explicit
below.  (`int` quantities such as `length` stay exact: they wrap only
beyond 2^31, far outside the modelled range.) -/

/-- The contribution `-(p * log2 p)` of one frequency count `n` out of a
total length whose real value is `L`. -/
noncomputable def probTerm (L : ℝ) (n : ℕ) : ℝ :=
  -(((n : ℝ) / L) * Real.logb 2 ((n : ℝ) / L))

/-- Entropy of the character distribution, as computed by
`calculate_entropy_cython`: zero for the empty string, otherwise the sum of
`-(p * log2 p)` over the distinct characters (guarded by `probability > 0`
exactly as in the source). -/
noncomputable def calculate_entropy_cython (v : List Char) : ℝ :=
  if v = [] then 0
  else (v.dedup.map fun c =>
    if 0 < ((v.count c : ℝ) / (v.length : ℝ)) then probTerm (v.length : ℝ) (v.count c)
    else 0).sum

/-- The hardcoded `secret_prefixes` list of `is_secret_cython`. -/
def secret_prefixes : List (List Char) :=
  ["sk_".data, "pk_".data, "AKIA".data, "vault:".data, "arn:aws:".data,
   "ghp_".data, "gho_".data, "ghs_".data, "key_".data, "token_".data, "secret_".data]

/-- Secret detection as in `is_secret_cython`: false on the empty string,
true when the entropy exceeds 4.5, otherwise true exactly when the value
starts with one of the hardcoded prefixes. -/
noncomputable def is_secret_cython (v : List Char) : Bool :=
  if v = [] then false
  else if calculate_entropy_cython v > 4.5 then true
  else secret_prefixes.any fun p => p.isPrefixOf v

/-- The `unsigned char[256]` frequency table of
`calculate_entropy_optimized`: slot `i` accumulates, modulo 2^8, the number
of characters whose code point is `i` modulo 2^8. -/
def byteFreq (v : List Char) (i : ℕ) : ℕ :=
  (v.countP fun c => c.toNat % 256 = i) % 256

/-- Entropy as computed by `calculate_entropy_optimized`: zero for the
empty string, otherwise the sum over the 256 table slots with positive
count of `-(p * log2 p)`. -/
noncomputable def calculate_entropy_optimized (v : List Char) : ℝ :=
  if v = [] then 0
  else ∑ i in Finset.range 256,
    if 0 < byteFreq v i then probTerm (v.length : ℝ) (byteFreq v i) else 0

/-! ## Definitions: classification and placeholders.

Modelled from the spec: `core/inference.py` is absent from the source tree.
Spec 4.2: entropy above 4.5 classifies `Secret`; otherwise a known secret
prefix classifies `Secret`; otherwise an encrypted-at-rest marker
classifies `EncryptedAtRest`; otherwise `Plain`.  The secret prefix set is
the one hardcoded in the shipped `is_secret_cython`; the encrypted markers
`encrypted:`, `sops:`, `ENC[` are the ones named by the repository
documentation. -/

inductive Classification where
  | Secret
  | EncryptedAtRest
  | Plain
deriving DecidableEq, Repr

def encrypted_markers : List (List Char) :=
  ["encrypted:".data, "sops:".data, "ENC[".data]

/-- Modelled from the spec: `classify` of the missing `core/inference.py`
(spec 4.2), with the shipped entropy function as its entropy signal. -/
noncomputable def classify (v : List Char) : Classification :=
  if calculate_entropy_cython v > 4.5 then .Secret
  else if secret_prefixes.any fun p => p.isPrefixOf v then .Secret
  else if encrypted_markers.any fun p => p.isPrefixOf v then .EncryptedAtRest
  else .Plain

/-- Modelled from the spec: placeholder generation of the missing
`core/inference.py` (spec 4.2): `Plain` values pass through unchanged,
secrets become `<your_{lowercased_key}>`, encrypted-at-rest values become
`<your_{lowercased_key}_encrypted>`. -/
def placeholder (key : List Char) (value : List Char) : Classification → List Char
  | .Plain => value
  | .Secret => "<your_".data ++ key.map Char.toLower ++ ">".data
  | .EncryptedAtRest => "<your_".data ++ key.map Char.toLower ++ "_encrypted>".data

/-! ## Definitions: fuzzy similarity.

Modelled from the spec: the reconciler's similarity signal is "any standard
longest-common-subsequence-based ratio function" (spec 9), normalized as
`2*M / (len(a)+len(b))` like `difflib.SequenceMatcher`, with `M` the
length of a longest common subsequence.  `lcsLength` is the classic
row-by-row dynamic program. -/

/-- One row update of the LCS dynamic program: `prev` is the previous row
(length `b.length + 1`), `left` the entry just computed in the new row. -/
def lcsRowStep (x : Char) : List Char → List ℕ → ℕ → List ℕ
  | [], _, _ => []
  | bj :: bs, prev, left =>
    let diag := prev.headD 0
    let up := prev.tail.headD 0
    let cur := if x = bj then diag + 1 else max left up
    cur :: lcsRowStep x bs prev.tail cur

/-- Length of a longest common subsequence of `a` and `b`. -/
def lcsLength (a b : List Char) : ℕ :=
  (a.foldl (fun row x => 0 :: lcsRowStep x b row 0)
    (List.replicate (b.length + 1) 0)).getLastD 0

/-- Normalized similarity: the rational `2*M / (len(a)+len(b))` with
`M = lcsLength` (built with `mkRat`; `similarity_eq` below shows it equals
the textbook quotient). -/
def similarity (a b : List Char) : ℚ :=
  mkRat (2 * lcsLength a b) (a.length + b.length)

/-! ## Definitions: reconciler.

Modelled from the spec: `core/syncer.py` is absent from the source tree.
`ParsedFile` is the index layer of spec section 3: the authoritative
key/value mapping (duplicates collapse, last occurrence wins), the
graveyard entries `(key, removal_date)` and the tombstones `(key, date)`;
dates are day numbers.  `reconcileWith` is the algorithm of spec 4.3,
parametrized by the classifier so that concrete runs can be evaluated
(spec 9 explicitly asks for the classification configuration to be passed
in); `reconcile` instantiates it with `classify`.

Sticky determination (spec 4.3): `reconcile` receives no record of the
previously generated value, so the specified conservative fallback applies
- any destination value that is not placeholder-shaped is treated as a
manual edit and preserved; a placeholder-shaped one is regenerated. -/

structure ParsedFile where
  kvs : List (List Char × List Char)
  graveyard : List (List Char × Int)
  tombstones : List (List Char × Int)
deriving DecidableEq, Repr

/-- A value shaped like a generated placeholder: `<your_...>`. -/
def isPlaceholderShaped (v : List Char) : Bool :=
  "<your_".data.isPrefixOf v && v.getLast? == some '>'

/-- Sticky rule of spec 4.3: keep a manually edited (non-placeholder-shaped)
destination value, otherwise regenerate the placeholder from the current
source value and classification. -/
def stickyValue (cls : List Char → Classification) (k v pv : List Char) : List Char :=
  if isPlaceholderShaped pv then placeholder k v (cls v) else pv

inductive Decision where
  | skip
  | matched (oldKey : List Char) (value : List Char)
  | fresh (value : List Char)
deriving DecidableEq, Repr

/-- Best fuzzy candidate for a source key: the candidate with the highest
similarity (earliest in destination order on ties), accepted only when the
similarity exceeds 0.8 (spec 4.3). -/
def bestFuzzy (k : List Char) (cands : List (List Char × List Char)) :
    Option (List Char × List Char) :=
  let best := cands.foldl (fun acc c =>
    match acc with
    | none => some c
    | some b => if similarity k c.1 > similarity k b.1 then some c else some b) none
  match best with
  | some b => if similarity k b.1 > mkRat 8 10 then some b else none
  | none => none

/-- Decision for one source key (spec 4.3): tombstoned keys are silently
omitted; otherwise an exact match on a not-yet-consumed destination key
applies the sticky rule; otherwise the best fuzzy candidate above 0.8 is a
rename carrying the destination entry; otherwise the key is new. -/
def decideKey (cls : List Char → Classification)
    (pkvs : List (List Char × List Char)) (tombKeys : List (List Char))
    (consumed : List (List Char)) (k v : List Char) : Decision :=
  if k ∈ tombKeys then .skip
  else
    match (if k ∉ consumed then pkvs.find? fun p => p.1 = k else none) with
    | some p => .matched k (stickyValue cls k v p.2)
    | none =>
      match bestFuzzy k (pkvs.filter fun p => p.1 ∉ consumed) with
      | some b => .matched b.1 (stickyValue cls k v b.2)
      | none => .fresh (placeholder k v (cls v))

def consumedOf : Decision → List (List Char)
  | .matched ok _ => [ok]
  | _ => []

/-- Process the source keys in order, threading the set of destination keys
already consumed by exact or fuzzy matches. -/
def plan (cls : List Char → Classification)
    (pkvs : List (List Char × List Char)) (tombKeys : List (List Char)) :
    List (List Char × List Char) → List (List Char) →
      List ((List Char × List Char) × Decision)
  | [], _ => []
  | kv :: rest, consumed =>
    let d := decideKey cls pkvs tombKeys consumed kv.1 kv.2
    (kv, d) :: plan cls pkvs tombKeys rest (consumedOf d ++ consumed)

/-- Association from consumed destination key to the (possibly renamed)
output entry it produced. -/
def matchedMap (ds : List ((List Char × List Char) × Decision)) :
    List (List Char × (List Char × List Char)) :=
  ds.filterMap fun x =>
    match x.2 with
    | .matched ok val => some (ok, (x.1.1, val))
    | _ => none

def freshList (ds : List ((List Char × List Char) × Decision)) :
    List (List Char × List Char) :=
  ds.filterMap fun x =>
    match x.2 with
    | .fresh val => some (x.1.1, val)
    | _ => none

/-- Value of the last occurrence of a key (last-seen wins, spec section 3). -/
def lastVal (l : List (List Char × List Char)) (k : List Char) : List Char :=
  (((l.filter fun p => p.1 = k).getLast?).map fun p => p.2).getD []

/-- Collapse duplicate keys, last occurrence winning (spec section 3). -/
def collapseLW (l : List (List Char × List Char)) : List (List Char × List Char) :=
  (l.map fun p => p.1).dedup.map fun k => (k, lastVal l k)

/-- The destination file (or the empty one when none exists yet). -/
def prevOf (previous : Option ParsedFile) : ParsedFile := previous.getD ⟨[], [], []⟩

/-- Keys carrying a tombstone. -/
def tombKeysOf (f : ParsedFile) : List (List Char) := f.tombstones.map fun t => t.1

/-- The decisions for all (collapsed) source keys, in source order. -/
def planOf (cls : List Char → Classification) (source : ParsedFile)
    (previous : Option ParsedFile) : List ((List Char × List Char) × Decision) :=
  plan cls (collapseLW (prevOf previous).kvs) (tombKeysOf (prevOf previous))
    (collapseLW source.kvs) []

/-- Carried-over entries, in destination order: each destination key
consumed by an exact or fuzzy match contributes its (possibly renamed)
output entry at its old position. -/
def carriedOf (cls : List Char → Classification) (source : ParsedFile)
    (previous : Option ParsedFile) : List (List Char × List Char) :=
  (collapseLW (prevOf previous).kvs).filterMap fun p =>
    ((matchedMap (planOf cls source previous)).find? fun q => q.1 = p.1).map fun q => q.2

/-- Fresh graveyard entries dated `today`: destination keys consumed by no
match and carrying no tombstone. -/
def newGraveOf (cls : List Char → Classification) (source : ParsedFile)
    (previous : Option ParsedFile) (today : Int) : List (List Char × Int) :=
  (collapseLW (prevOf previous).kvs).filterMap fun p =>
    if p.1 ∉ (matchedMap (planOf cls source previous)).map (fun q => q.1)
        ∧ p.1 ∉ tombKeysOf (prevOf previous) then some (p.1, today) else none

/-- Re-emitted graveyard entries: at most 14 days old and not resurrected
by the source. -/
def keptGraveOf (source : ParsedFile) (previous : Option ParsedFile)
    (today : Int) : List (List Char × Int) :=
  (prevOf previous).graveyard.filter fun g =>
    today - g.2 ≤ 14 ∧ g.1 ∉ ((collapseLW source.kvs).map fun q => q.1)

/-- Modelled from the spec: the reconciliation algorithm of the missing
`core/syncer.py` (spec 4.3), parametrized by the classifier.  Carried-over
keys keep the destination order, new keys are appended in source order;
unmatched, untombstoned destination keys are graveyarded dated `today`;
graveyard entries older than 14 days, or whose key reappears in the source,
are dropped and the rest re-emitted; tombstones are re-emitted verbatim. -/
def reconcileWith (cls : List Char → Classification) (source : ParsedFile)
    (previous : Option ParsedFile) (today : Int) : ParsedFile :=
  ⟨carriedOf cls source previous ++ freshList (planOf cls source previous),
   keptGraveOf source previous today ++ newGraveOf cls source previous today,
   (prevOf previous).tombstones⟩

/-- The reconciler entry point of spec 4.3 and 6. -/
noncomputable def reconcile (source : ParsedFile) (previous : Option ParsedFile)
    (today : Int) : ParsedFile :=
  reconcileWith classify source previous today

/-- A destination file that is a fixed point of reconciliation against a
given (collapsed) source: its keys are exactly the untombstoned source
keys, without duplicates; every held value is already sticky-stable for
the corresponding source value; and every graveyard entry is within the
14-day window and not resurrected by the source. -/
def Stable (cls : List Char → Classification) (srcC : List (List Char × List Char))
    (d : Int) (F : ParsedFile) : Prop :=
  ((F.kvs.map fun p => p.1).Nodup) ∧
  (∀ k, (∃ u, (k, u) ∈ F.kvs) ↔ ((∃ v, (k, v) ∈ srcC) ∧ k ∉ tombKeysOf F)) ∧
  (∀ k u v, (k, u) ∈ F.kvs → (k, v) ∈ srcC → stickyValue cls k v u = u) ∧
  (∀ g ∈ F.graveyard, d - g.2 ≤ 14 ∧ g.1 ∉ (srcC.map fun q => q.1))

/-- Finite-table classifier used to evaluate concrete reconciliation runs
(values absent from the table count as `Plain`). -/
def clsOf (tbl : List (List Char × Classification)) (v : List Char) : Classification :=
  ((tbl.find? fun p => p.1 = v).map fun p => p.2).getD .Plain

/-- A 32-character value with pairwise distinct characters: its entropy is
exactly `log2 32 = 5`. -/
def sampleHighEntropy : List Char := "abcdefghijklmnopqrstuvwxyz012345".data

/-- 256 copies of `a` followed by one `b`: the `unsigned char` slot of `a`
in `calculate_entropy_optimized` wraps to zero on this input. -/
def exC9 : List Char := List.replicate 256 'a' ++ ['b']

/-- Source file of the end-to-end example of spec section 8. -/
def srcC8 : ParsedFile :=
  ⟨[("APP_ENV".data, "development".data),
    ("STRIPE_SECRET_KEY".data, "sk_test_51HqK2xJ3yF8gD9nP".data),
    ("DEBUG".data, "true".data)], [], []⟩

/-- Source for the no-leak counterexample: the private file holds an
`sk_`-prefixed secret. -/
def srcC2 : ParsedFile := ⟨[("STRIPE_KEY".data, "sk_live_ABC".data)], [], []⟩

/-- Destination for the no-leak counterexample: someone pasted the raw
secret into the shareable file, where it is now a sticky value. -/
def prevC2 : ParsedFile := ⟨[("STRIPE_KEY".data, "sk_live_ABC".data)], [], []⟩

/-- Source for the rename scenario: `DATABASE_PASSWORD` with a fresh
secret value. -/
def srcC4 : ParsedFile := ⟨[("DATABASE_PASSWORD".data, "sk_live_p4ss".data)], [], []⟩

/-- Destination for the rename scenario: the old `DB_PASS` placeholder. -/
def prevC4 : ParsedFile := ⟨[("DB_PASS".data, "<your_db_pass>".data)], [], []⟩

/-- Source for the graveyard resurrection counterexample: key `K` is back. -/
def srcC5 : ParsedFile := ⟨[("K".data, "x".data)], [], []⟩

/-- Destination for the graveyard resurrection counterexample: `K` sits in
the graveyard, dated day 0. -/
def prevC5 : ParsedFile := ⟨[], [("K".data, 0)], []⟩

/-- Destination used by the graveyard witness: one stale key `OLD` and one
recent graveyard entry `G`. -/
def prevC5W : ParsedFile := ⟨[("OLD".data, "v".data)], [("G".data, 0)], []⟩

/-- Source for the tombstone witness: the tombstoned key `K` reappears. -/
def srcC6 : ParsedFile := ⟨[("K".data, "v".data)], [], []⟩

/-- Destination for the tombstone witness: `K` carries a tombstone. -/
def prevC6 : ParsedFile := ⟨[], [], [("K".data, 0)]⟩

/-! ## Theorems: lexer round trip. -/

theorem takeLine_append (s : List Char) :
    (takeLine s).1 ++ (takeLine s).2.1 ++ (takeLine s).2.2 = s := by
  induction s with
  | nil => rfl
  | cons c cs ih =>
    simp only [takeLine]
    split_ifs with h1 h2
    · simp [h1]
    · obtain ⟨hc, hh⟩ := h2
      cases cs with
      | nil => simp at hh
      | cons d ds =>
        simp only [List.head?_cons, Option.some.injEq] at hh
        simp [hc, hh]
    · simpa using ih

theorem takeLine_rest_lt (s : List Char) (h : s ≠ []) :
    (takeLine s).2.2.length < s.length := by
  cases s with
  | nil => exact absurd rfl h
  | cons c cs =>
    have hlen : (takeLine cs).2.2.length ≤ cs.length := by
      have := congrArg List.length (takeLine_append cs)
      simp only [List.length_append] at this
      omega
    simp only [takeLine]
    split_ifs with h1 h2
    · simp
    · simp only [List.length_cons, List.length_tail]
      omega
    · simp only [List.length_cons]
      omega

theorem wrapQuote_detectQuote (r : List Char) :
    wrapQuote (detectQuote r).1 (detectQuote r).2 = r := by
  match r with
  | [] => rfl
  | c :: rest =>
    simp only [detectQuote]
    split_ifs with h1 h2
    · obtain ⟨hc, hl⟩ := h1
      rcases List.eq_nil_or_concat rest with hr | ⟨l, b, hr⟩
      · subst hr; simp at hl
      · subst hr
        simp only [List.concat_eq_append, List.getLast?_concat, Option.some.injEq] at hl
        simp [wrapQuote, hc, hl]
    · obtain ⟨hc, hl⟩ := h2
      rcases List.eq_nil_or_concat rest with hr | ⟨l, b, hr⟩
      · subst hr; simp at hl
      · subst hr
        simp only [List.concat_eq_append, List.getLast?_concat, Option.some.injEq] at hl
        simp [wrapQuote, hc, hl]
    · rfl

theorem parseKVCore_print (rest : List Char) (k : List Char) (q : QuoteStyle)
    (v : List Char) (h : parseKVCore rest = some (k, q, v)) :
    k ++ '=' :: wrapQuote q v = rest := by
  unfold parseKVCore at h
  simp only at h
  split_ifs at h with hkey
  split at h
  next valRaw heq =>
    simp only [Option.some.injEq, Prod.mk.injEq] at h
    obtain ⟨hk, hq, hv⟩ := h
    have hwrap : wrapQuote q v = valRaw := by
      rw [← hq, ← hv, wrapQuote_detectQuote]
    have hsplit := List.takeWhile_append_dropWhile (p := isIdentChar) (l := rest)
    rw [heq] at hsplit
    rw [← hk, hwrap]
    exact hsplit
  next _ => simp at h

theorem parseKV_print (l : List Char) (e : Bool) (k : List Char) (q : QuoteStyle)
    (v : List Char) (h : parseKV l = some (e, k, q, v)) :
    (if e then exportMarker else []) ++ k ++ '=' :: wrapQuote q v = l := by
  unfold parseKV at h
  split_ifs at h with hp
  · rcases hmap : parseKVCore (l.drop exportMarker.length) with _ | ⟨k', q', v'⟩ <;>
      rw [hmap] at h
    · simp at h
    · simp only [Option.map_some', Option.some.injEq, Prod.mk.injEq] at h
      obtain ⟨he, hk, hq, hv⟩ := h
      obtain ⟨t, ht⟩ := List.isPrefixOf_iff_prefix.mp hp
      have hcore := parseKVCore_print _ _ _ _ hmap
      rw [← ht, List.drop_left] at hcore
      rw [← he, if_pos rfl, ← ht, List.append_assoc]
      rw [← hk, ← hq, ← hv]
      exact congrArg (exportMarker ++ ·) hcore
  · rcases hmap : parseKVCore l with _ | ⟨k', q', v'⟩ <;> rw [hmap] at h
    · simp at h
    · simp only [Option.map_some', Option.some.injEq, Prod.mk.injEq] at h
      obtain ⟨he, hk, hq, hv⟩ := h
      have hcore := parseKVCore_print _ _ _ _ hmap
      rw [← he]
      simp only [Bool.false_eq_true, if_false, List.nil_append]
      rw [← hk, ← hq, ← hv]
      exact hcore

theorem printToken_parseLine (c t : List Char) :
    printToken (parseLine c t) = c ++ t := by
  unfold parseLine
  split_ifs with h1 h2
  · rfl
  · rfl
  · cases hkv : parseKV c with
    | none => rfl
    | some r =>
      obtain ⟨e, k, q, v⟩ := r
      simp only [printToken]
      have hp := parseKV_print c e k q v hkv
      rw [← hp]
      simp

theorem splitLinesFuel_flatten (n : ℕ) :
    ∀ s : List Char, s.length ≤ n →
      ((splitLinesFuel n s).map fun p => p.1 ++ p.2).flatten = s := by
  induction n with
  | zero =>
    intro s hs
    have : s = [] := List.eq_nil_of_length_eq_zero (Nat.le_zero.mp hs)
    subst this
    rfl
  | succ n ih =>
    intro s hs
    cases s with
    | nil => rfl
    | cons a as =>
      simp only [splitLinesFuel, List.map_cons, List.flatten_cons]
      rw [ih (takeLine (a :: as)).2.2 (by
        have := takeLine_rest_lt (a :: as) (by simp)
        simp only [List.length_cons] at this hs ⊢
        omega)]
      exact takeLine_append _

theorem splitLines_flatten (s : List Char) :
    ((splitLines s).map fun p => p.1 ++ p.2).flatten = s :=
  splitLinesFuel_flatten s.length s le_rfl

/-- C1: for every input string (including the empty string, strings without
a trailing newline, strings mixing LF and CRLF line endings, and strings of
only comments or blank lines), `parse` succeeds — it is a total function —
and `printTokens (parse s)` reproduces the input byte for byte. -/
theorem C1_round_trip (s : List Char) : printTokens (parse s) = s := by
  unfold parse printTokens
  rw [List.map_map]
  have hcomp : (printToken ∘ fun p : List Char × List Char => parseLine p.1 p.2)
      = fun p : List Char × List Char => p.1 ++ p.2 :=
    funext fun p => printToken_parseLine p.1 p.2
  rw [hcomp, splitLines_flatten]

/-! ## Theorems: entropy bounds. -/

theorem list_sum_map_div {α : Type} (l : List α) (f : α → ℝ) (r : ℝ) :
    (l.map fun x => f x / r).sum = (l.map f).sum / r := by
  induction l with
  | nil => simp
  | cons a as ih => simp [ih, add_div]

theorem dedup_prob_sum (v : List Char) (h : v ≠ []) :
    (v.dedup.map fun c => (v.count c : ℝ) / (v.length : ℝ)).sum = 1 := by
  have hlen : (0 : ℝ) < (v.length : ℝ) := by
    have := List.length_pos.mpr h
    exact_mod_cast this
  rw [list_sum_map_div]
  have hcast : (v.dedup.map fun c => ((v.count c : ℕ) : ℝ)).sum
      = ((v.dedup.map fun c => v.count c).sum : ℝ) := by
    rw [Nat.cast_list_sum, List.map_map]
    rfl
  rw [hcast, List.sum_map_count_dedup_eq_length]
  exact div_self (ne_of_gt hlen)

/-- The per-character entropy contribution is bounded by
`p * log2 length`. -/
theorem probTerm_le (v : List Char) (c : Char) (hc : c ∈ v) (h : v ≠ []) :
    probTerm (v.length : ℝ) (v.count c)
      ≤ ((v.count c : ℝ) / (v.length : ℝ)) * Real.logb 2 (v.length : ℝ) := by
  have hcnt : 0 < v.count c := List.count_pos_iff.mpr hc
  have hlen : 0 < v.length := List.length_pos.mpr h
  have hcntR : (0 : ℝ) < (v.count c : ℝ) := by exact_mod_cast hcnt
  have hlenR : (0 : ℝ) < (v.length : ℝ) := by exact_mod_cast hlen
  have hp : (0 : ℝ) < (v.count c : ℝ) / (v.length : ℝ) := div_pos hcntR hlenR
  have hinv : ((v.count c : ℝ) / (v.length : ℝ))⁻¹ = (v.length : ℝ) / (v.count c : ℝ) :=
    inv_div _ _
  have hstep : probTerm (v.length : ℝ) (v.count c)
      = ((v.count c : ℝ) / (v.length : ℝ))
        * Real.logb 2 (((v.count c : ℝ) / (v.length : ℝ))⁻¹) := by
    rw [Real.logb_inv]
    unfold probTerm
    ring
  rw [hstep, hinv]
  refine mul_le_mul_of_nonneg_left ?_ (le_of_lt hp)
  refine Real.logb_le_logb_of_le (by norm_num) (div_pos hlenR hcntR) ?_
  have hone : (1 : ℝ) ≤ (v.count c : ℝ) := by exact_mod_cast hcnt
  exact div_le_self (le_of_lt hlenR) hone

/-- Shannon entropy of a string never exceeds `log2` of its length. -/
theorem entropy_le_logb_length (v : List Char) (h : v ≠ []) :
    calculate_entropy_cython v ≤ Real.logb 2 (v.length : ℝ) := by
  unfold calculate_entropy_cython
  rw [if_neg h]
  have hlen : 0 < v.length := List.length_pos.mpr h
  have hlenR : (0 : ℝ) < (v.length : ℝ) := by exact_mod_cast hlen
  have hbound : ∀ c ∈ v.dedup,
      (if 0 < ((v.count c : ℝ) / (v.length : ℝ)) then probTerm (v.length : ℝ) (v.count c)
       else 0)
      ≤ ((v.count c : ℝ) / (v.length : ℝ)) * Real.logb 2 (v.length : ℝ) := by
    intro c hc
    have hcv : c ∈ v := List.mem_dedup.mp hc
    have hcnt : 0 < v.count c := List.count_pos_iff.mpr hcv
    have hp : (0 : ℝ) < (v.count c : ℝ) / (v.length : ℝ) := by
      apply div_pos _ hlenR
      exact_mod_cast hcnt
    rw [if_pos hp]
    exact probTerm_le v c hcv h
  calc (v.dedup.map fun c =>
      if 0 < ((v.count c : ℝ) / (v.length : ℝ)) then probTerm (v.length : ℝ) (v.count c)
      else 0).sum
      ≤ (v.dedup.map fun c =>
          ((v.count c : ℝ) / (v.length : ℝ)) * Real.logb 2 (v.length : ℝ)).sum :=
        List.sum_le_sum hbound
    _ = (v.dedup.map fun c => (v.count c : ℝ) / (v.length : ℝ)).sum
          * Real.logb 2 (v.length : ℝ) := List.sum_map_mul_right _ _ _
    _ = Real.logb 2 (v.length : ℝ) := by rw [dedup_prob_sum v h, one_mul]

/-- A duplicate-free string of length `L` has entropy exactly `log2 L`. -/
theorem entropy_nodup (v : List Char) (hd : v.Nodup) (h : v ≠ []) :
    calculate_entropy_cython v = Real.logb 2 (v.length : ℝ) := by
  unfold calculate_entropy_cython
  rw [if_neg h, List.dedup_eq_self.mpr hd]
  have hlen : 0 < v.length := List.length_pos.mpr h
  have hlenR : (0 : ℝ) < (v.length : ℝ) := by exact_mod_cast hlen
  have hterm : ∀ c ∈ v,
      (if 0 < ((v.count c : ℝ) / (v.length : ℝ)) then probTerm (v.length : ℝ) (v.count c)
       else 0)
      = (1 / (v.length : ℝ)) * Real.logb 2 (v.length : ℝ) := by
    intro c hc
    have hone : v.count c = 1 := List.count_eq_one_of_mem hd hc
    have hp : (0 : ℝ) < (v.count c : ℝ) / (v.length : ℝ) := by
      rw [hone]
      apply div_pos _ hlenR
      norm_num
    rw [if_pos hp, hone]
    unfold probTerm
    rw [Nat.cast_one, one_div, Real.logb_inv]
    ring
  rw [List.map_congr_left hterm, List.map_const', List.sum_replicate, nsmul_eq_mul]
  field_simp

/-! ## Theorems: classification. -/

theorem logb_two_pow (k : ℕ) : Real.logb 2 ((2 : ℝ) ^ k) = (k : ℝ) := by
  rw [Real.logb_pow, Real.logb_self_eq_one (by norm_num), mul_one]

theorem entropy_not_gt_of_short (v : List Char) (hlen : v.length ≤ 16) :
    ¬ (calculate_entropy_cython v > 4.5) := by
  by_cases hv : v = []
  · subst hv
    unfold calculate_entropy_cython
    norm_num
  · have h1 := entropy_le_logb_length v hv
    have h2 : Real.logb 2 (v.length : ℝ) ≤ Real.logb 2 ((2 : ℝ) ^ (4 : ℕ)) := by
      apply Real.logb_le_logb_of_le (by norm_num)
      · have := List.length_pos.mpr hv
        exact_mod_cast this
      · have : (v.length : ℝ) ≤ 16 := by exact_mod_cast hlen
        norm_num
        linarith
    rw [logb_two_pow] at h2
    norm_num at h2
    norm_num
    linarith

theorem classify_of_secret_start (v : List Char)
    (h : ∃ p ∈ secret_prefixes, p.isPrefixOf v = true) :
    classify v = .Secret := by
  unfold classify
  by_cases hent : calculate_entropy_cython v > 4.5
  · rw [if_pos hent]
  · rw [if_neg hent, if_pos (List.any_eq_true.mpr h)]

theorem classify_plain_short (v : List Char) (hlen : v.length ≤ 16)
    (hs : (secret_prefixes.any fun p => p.isPrefixOf v) = false)
    (he : (encrypted_markers.any fun p => p.isPrefixOf v) = false) :
    classify v = .Plain := by
  unfold classify
  rw [if_neg (entropy_not_gt_of_short v hlen), hs, he]
  simp

/-- C7: `classify` is the decision procedure of the inference contract:
the empty string classifies `Plain` (its entropy is zero); every value
whose Shannon entropy exceeds 4.5 classifies `Secret`; a value starting
with a known secret prefix classifies `Secret` regardless of its entropy;
and `classify "development" = Plain`. -/
theorem C7_classify_boundary :
    classify [] = .Plain ∧
    (∀ v, calculate_entropy_cython v > 4.5 → classify v = .Secret) ∧
    (∀ v p, p ∈ secret_prefixes → p.isPrefixOf v = true → classify v = .Secret) ∧
    classify "development".data = .Plain := by
  refine ⟨?_, ?_, ?_, ?_⟩
  · exact classify_plain_short [] (by decide) (by decide) (by decide)
  · intro v h
    unfold classify
    rw [if_pos h]
  · intro v p hp hpre
    exact classify_of_secret_start v ⟨p, hp, hpre⟩
  · exact classify_plain_short _ (by decide) (by decide) (by decide)

/-- Witness for C7: the all-distinct 32-character value has entropy
`log2 32 = 5 > 4.5` and classifies `Secret`; `sk_test_51HqK2xJ3yF8gD9nP`
classifies `Secret` purely from the `sk_` prefix. -/
theorem C7_classify_boundary_witness :
    calculate_entropy_cython sampleHighEntropy > 4.5 ∧
    classify sampleHighEntropy = .Secret ∧
    "sk_".data ∈ secret_prefixes ∧
    "sk_".data.isPrefixOf "sk_test_51HqK2xJ3yF8gD9nP".data = true ∧
    classify "sk_test_51HqK2xJ3yF8gD9nP".data = .Secret := by
  have hent : calculate_entropy_cython sampleHighEntropy > 4.5 := by
    rw [entropy_nodup sampleHighEntropy (by decide) (by decide)]
    rw [show sampleHighEntropy.length = 2 ^ 5 from by decide]
    rw [show ((2 ^ 5 : ℕ) : ℝ) = (2 : ℝ) ^ (5 : ℕ) from by norm_num]
    rw [logb_two_pow]
    norm_num
  refine ⟨hent, C7_classify_boundary.2.1 _ hent, by decide, by decide, ?_⟩
  exact C7_classify_boundary.2.2.1 _ "sk_".data (by decide) (by decide)

/-- C10: `is_secret_cython` returns true for every value starting with one
of the hardcoded prefixes, regardless of its entropy (in particular every
`pk_`-prefixed publishable key is classified a secret). -/
theorem C10_prefix_secret (v : List Char)
    (h : ∃ p ∈ secret_prefixes, p.isPrefixOf v = true) :
    is_secret_cython v = true := by
  obtain ⟨p, hp, hpre⟩ := h
  have hpne : p ≠ [] := by
    have hall : ∀ q ∈ secret_prefixes, q ≠ [] := by decide
    exact hall p hp
  have hvne : v ≠ [] := by
    intro hv
    subst hv
    cases p with
    | nil => exact hpne rfl
    | cons a as => simp [List.isPrefixOf] at hpre
  unfold is_secret_cython
  rw [if_neg hvne]
  by_cases hent : calculate_entropy_cython v > 4.5
  · rw [if_pos hent]
  · rw [if_neg hent]
    exact List.any_eq_true.mpr ⟨p, hp, hpre⟩

/-- Witness for C10: a `pk_`-prefixed value is reported secret. -/
theorem C10_prefix_secret_witness :
    (∃ p ∈ secret_prefixes, p.isPrefixOf "pk_live_abc".data = true) ∧
    is_secret_cython "pk_live_abc".data = true :=
  ⟨by decide, C10_prefix_secret _ (by decide)⟩
/-! ## Theorems: equivalence of the two entropy implementations. -/

theorem char_toNat_inj {c d : Char} (h : c.toNat = d.toNat) : c = d :=
  Char.ext (UInt32.toNat.inj h)

theorem byteFreq_toNat (v : List Char) (c : Char) (h1 : ∀ d ∈ v, d.toNat < 256)
    (h2 : ∀ d ∈ v, v.count d < 256) (hc : c ∈ v) :
    byteFreq v (c.toNat) = v.count c := by
  unfold byteFreq
  have hcount : (v.countP fun d => d.toNat % 256 = c.toNat) = v.count c := by
    rw [List.count_eq_countP]
    apply List.countP_congr
    intro d hd
    simp only [decide_eq_true_eq, beq_iff_eq]
    constructor
    · intro hmod
      rw [Nat.mod_eq_of_lt (h1 d hd)] at hmod
      exact char_toNat_inj hmod
    · intro hde
      subst hde
      exact Nat.mod_eq_of_lt (h1 d hd)
  rw [hcount]
  exact Nat.mod_eq_of_lt (h2 c hc)

/-- C9 (amended): the dict-based and the 256-slot-table entropy
implementations agree on every string whose code points are all below 256
and in which no character occurs 256 or more times; the `unsigned char`
table slots wrap modulo 256 otherwise. -/
theorem C9_entropy_equiv_amended (v : List Char)
    (h1 : ∀ c ∈ v, c.toNat < 256) (h2 : ∀ c ∈ v, v.count c < 256) :
    calculate_entropy_cython v = calculate_entropy_optimized v := by
  by_cases hv : v = []
  · subst hv
    rfl
  · unfold calculate_entropy_cython calculate_entropy_optimized
    rw [if_neg hv, if_neg hv]
    have hguard : ∀ c ∈ v.dedup,
        (if 0 < ((v.count c : ℝ) / (v.length : ℝ)) then probTerm (v.length : ℝ) (v.count c)
         else 0)
        = probTerm (v.length : ℝ) (v.count c) := by
      intro c hc
      have hcv : c ∈ v := List.mem_dedup.mp hc
      have hlenR : (0 : ℝ) < (v.length : ℝ) := by
        exact_mod_cast List.length_pos.mpr hv
      rw [if_pos]
      apply div_pos _ hlenR
      exact_mod_cast List.count_pos_iff.mpr hcv
    rw [List.map_congr_left hguard]
    rw [← List.sum_toFinset _ (List.nodup_dedup v)]
    have hfilter : (∑ i in Finset.range 256,
        if 0 < byteFreq v i then probTerm (v.length : ℝ) (byteFreq v i) else 0)
        = ∑ i in (Finset.range 256).filter fun i => 0 < byteFreq v i,
            probTerm (v.length : ℝ) (byteFreq v i) :=
      (Finset.sum_filter _ _).symm
    rw [hfilter]
    refine Finset.sum_bij (fun c _ => c.toNat) ?_ ?_ ?_ ?_
    · intro c hc
      have hcv : c ∈ v := List.mem_dedup.mp (List.mem_toFinset.mp hc)
      rw [Finset.mem_filter, Finset.mem_range]
      refine ⟨h1 c hcv, ?_⟩
      rw [byteFreq_toNat v c h1 h2 hcv]
      exact List.count_pos_iff.mpr hcv
    · intro c₁ _ c₂ _ h
      exact char_toNat_inj h
    · intro i hi
      rw [Finset.mem_filter] at hi
      obtain ⟨_, hpos⟩ := hi
      have hcp : 0 < v.countP fun c => c.toNat % 256 = i := by
        by_contra hz
        push_neg at hz
        have : (v.countP fun c => c.toNat % 256 = i) = 0 := Nat.le_zero.mp hz
        unfold byteFreq at hpos
        rw [this] at hpos
        simp at hpos
      obtain ⟨c, hcv, hpc⟩ := List.countP_pos_iff.mp hcp
      have hmod : c.toNat % 256 = i := by simpa using hpc
      refine ⟨c, List.mem_toFinset.mpr (List.mem_dedup.mpr hcv), ?_⟩
      rw [← hmod]
      exact (Nat.mod_eq_of_lt (h1 c hcv)).symm
    · intro c hc
      have hcv : c ∈ v := List.mem_dedup.mp (List.mem_toFinset.mp hc)
      rw [byteFreq_toNat v c h1 h2 hcv]

/-- Witness for the amended C9 at the concrete input `"ab"`. -/
theorem C9_entropy_equiv_amended_witness :
    (∀ c ∈ "ab".data, c.toNat < 256) ∧ (∀ c ∈ "ab".data, "ab".data.count c < 256) ∧
    calculate_entropy_cython "ab".data = calculate_entropy_optimized "ab".data :=
  ⟨by decide, by decide, C9_entropy_equiv_amended _ (by decide) (by decide)⟩

theorem exC9_countP (i : ℕ) :
    (exC9.countP fun c => c.toNat % 256 = i)
      = (if 97 = i then 256 else 0) + (if 98 = i then 1 else 0) := by
  unfold exC9
  rw [List.countP_append, List.countP_replicate, List.countP_singleton]
  have ha : ('a'.toNat % 256) = 97 := rfl
  have hb : ('b'.toNat % 256) = 98 := rfl
  rw [ha, hb]
  by_cases h97 : 97 = i <;> by_cases h98 : 98 = i <;> simp [h97, h98]

/-- C9 (counterexample): on 256 copies of `a` followed by one `b` — every
code point below 256 — the two implementations disagree: the `unsigned
char` slot of `a` wraps to zero, so the optimized entropy misses the whole
`a` mass. -/
theorem C9_counterexample :
    calculate_entropy_cython exC9 ≠ calculate_entropy_optimized exC9 := by
  have hne : exC9 ≠ [] := by decide
  have hlen : exC9.length = 257 := by decide
  have hlhs : calculate_entropy_cython exC9
      = probTerm ((257 : ℕ) : ℝ) 256 + probTerm ((257 : ℕ) : ℝ) 1 := by
    unfold calculate_entropy_cython
    rw [if_neg hne]
    rw [show exC9.dedup = ['a', 'b'] from by decide]
    simp only [List.map_cons, List.map_nil, List.sum_cons, List.sum_nil]
    rw [show exC9.count 'a' = 256 from by decide, show exC9.count 'b' = 1 from by decide,
      hlen]
    rw [if_pos (by norm_num : (0 : ℝ) < ((256 : ℕ) : ℝ) / ((257 : ℕ) : ℝ))]
    rw [if_pos (by norm_num : (0 : ℝ) < ((1 : ℕ) : ℝ) / ((257 : ℕ) : ℝ))]
    ring
  have hrhs : calculate_entropy_optimized exC9 = probTerm ((257 : ℕ) : ℝ) 1 := by
    unfold calculate_entropy_optimized
    rw [if_neg hne, hlen]
    rw [Finset.sum_eq_single_of_mem 98 (by simp)]
    · rw [show byteFreq exC9 98 = 1 from by decide]
      norm_num
    · intro i _ hne98
      have hfr : byteFreq exC9 i
          = ((if 97 = i then 256 else 0) + (if 98 = i then 1 else 0)) % 256 := by
        unfold byteFreq
        rw [exC9_countP]
      by_cases h97 : 97 = i
      · subst h97
        rw [hfr]
        norm_num
      · rw [hfr]
        have h98 : ¬ (98 = i) := fun h => hne98 h.symm
        simp [h97, h98]
  rw [hlhs, hrhs]
  intro heq
  have hpos : 0 < probTerm ((257 : ℕ) : ℝ) 256 := by
    unfold probTerm
    push_cast
    have hl : Real.logb 2 ((256 : ℝ) / 257) < 0 :=
      Real.logb_neg (by norm_num) (by norm_num) (by norm_num)
    nlinarith [hl]
  linarith
/-! ## Theorems: reconciler, congruence in the classifier. -/

theorem decideKey_congr (cls cls' : List Char → Classification)
    (pkvs : List (List Char × List Char)) (tombs : List (List Char))
    (C : List (List Char)) (k v : List Char) (h : cls v = cls' v) :
    decideKey cls pkvs tombs C k v = decideKey cls' pkvs tombs C k v := by
  simp only [decideKey, stickyValue, h]

theorem plan_congr (cls cls' : List Char → Classification)
    (pkvs : List (List Char × List Char)) (tombs : List (List Char)) :
    ∀ (srcL : List (List Char × List Char)) (C : List (List Char)),
      (∀ kv ∈ srcL, cls kv.2 = cls' kv.2) →
      plan cls pkvs tombs srcL C = plan cls' pkvs tombs srcL C := by
  intro srcL
  induction srcL with
  | nil => intro C _; rfl
  | cons kv rest ih =>
    intro C h
    simp only [plan]
    rw [decideKey_congr cls cls' pkvs tombs C kv.1 kv.2 (h kv (List.mem_cons_self _ _))]
    rw [ih _ fun x hx => h x (List.mem_cons_of_mem _ hx)]

theorem planOf_congr (cls cls' : List Char → Classification)
    (source : ParsedFile) (previous : Option ParsedFile)
    (h : ∀ kv ∈ collapseLW source.kvs, cls kv.2 = cls' kv.2) :
    planOf cls source previous = planOf cls' source previous := by
  unfold planOf
  exact plan_congr cls cls' _ _ _ _ h

theorem reconcileWith_congr (cls cls' : List Char → Classification)
    (source : ParsedFile) (previous : Option ParsedFile) (d : Int)
    (h : ∀ kv ∈ collapseLW source.kvs, cls kv.2 = cls' kv.2) :
    reconcileWith cls source previous d = reconcileWith cls' source previous d := by
  simp only [reconcileWith, carriedOf, newGraveOf]
  rw [planOf_congr cls cls' source previous h]

/-- C8: `placeholder` returns the original value unchanged for `Plain`,
`<your_{lowercased_key}>` for `Secret` and
`<your_{lowercased_key}_encrypted>` for `EncryptedAtRest`; consequently
reconciling `APP_ENV=development`, `STRIPE_SECRET_KEY=sk_test_51HqK2xJ3yF8gD9nP`,
`DEBUG=true` against no previous destination yields exactly
`APP_ENV=development`, `STRIPE_SECRET_KEY=<your_stripe_secret_key>`,
`DEBUG=true`, with zero graveyard entries. -/
theorem C8_placeholder_end_to_end :
    (∀ k v, placeholder k v .Plain = v) ∧
    (∀ k v, placeholder k v .Secret = "<your_".data ++ k.map Char.toLower ++ ">".data) ∧
    (∀ k v, placeholder k v .EncryptedAtRest
      = "<your_".data ++ k.map Char.toLower ++ "_encrypted>".data) ∧
    ∀ d, reconcile srcC8 none d =
      ⟨[("APP_ENV".data, "development".data),
        ("STRIPE_SECRET_KEY".data, "<your_stripe_secret_key>".data),
        ("DEBUG".data, "true".data)], [], []⟩ := by
  refine ⟨fun k v => rfl, fun k v => rfl, fun k v => rfl, fun d => ?_⟩
  unfold reconcile
  rw [reconcileWith_congr classify (clsOf [("sk_test_51HqK2xJ3yF8gD9nP".data, .Secret)])
    srcC8 none d ?_]
  · rfl
  · intro kv hkv
    have hkv' : kv = ("APP_ENV".data, "development".data)
        ∨ kv = ("STRIPE_SECRET_KEY".data, "sk_test_51HqK2xJ3yF8gD9nP".data)
        ∨ kv = ("DEBUG".data, "true".data) := by
      rw [show collapseLW srcC8.kvs = srcC8.kvs from by decide] at hkv
      simpa [srcC8] using hkv
    rcases hkv' with rfl | rfl | rfl
    · rw [show (("APP_ENV".data, "development".data) : List Char × List Char).2
        = "development".data from rfl]
      rw [classify_plain_short _ (by decide) (by decide) (by decide)]
      rfl
    · rw [show (("STRIPE_SECRET_KEY".data, "sk_test_51HqK2xJ3yF8gD9nP".data)
        : List Char × List Char).2 = "sk_test_51HqK2xJ3yF8gD9nP".data from rfl]
      rw [classify_of_secret_start _ ⟨"sk_".data, by decide, by decide⟩]
      rfl
    · rw [show (("DEBUG".data, "true".data) : List Char × List Char).2
        = "true".data from rfl]
      rw [classify_plain_short _ (by decide) (by decide) (by decide)]
      rfl


/-! ## Theorems: reconciler inversion lemmas. -/

theorem bestFold_mem (k : List Char) :
    ∀ (cands : List (List Char × List Char)) (acc : Option (List Char × List Char))
      (b : List Char × List Char),
      cands.foldl (fun acc c =>
        match acc with
        | none => some c
        | some x => if similarity k c.1 > similarity k x.1 then some c else some x)
        acc = some b →
      acc = some b ∨ b ∈ cands := by
  intro cands
  induction cands with
  | nil => intro acc b h; exact Or.inl h
  | cons c rest ih =>
    intro acc b h
    simp only [List.foldl_cons] at h
    rcases ih _ b h with hacc | hmem
    · cases acc with
      | none =>
        have hacc' : some c = some b := hacc
        simp only [Option.some.injEq] at hacc'
        exact Or.inr (hacc' ▸ List.mem_cons_self _ _)
      | some x =>
        have hacc' : (if similarity k c.1 > similarity k x.1 then some c else some x)
            = some b := hacc
        split_ifs at hacc'
        · simp only [Option.some.injEq] at hacc'
          exact Or.inr (hacc' ▸ List.mem_cons_self _ _)
        · exact Or.inl hacc'
    · exact Or.inr (List.mem_cons_of_mem _ hmem)

theorem bestFuzzy_mem {k : List Char} {cands : List (List Char × List Char)}
    {b : List Char × List Char} (h : bestFuzzy k cands = some b) : b ∈ cands := by
  unfold bestFuzzy at h
  simp only at h
  split at h
  next b' hb' =>
    split_ifs at h
    injection h with h
    subst h
    rcases bestFold_mem k cands none b' hb' with hc | hm
    · exact absurd hc (by simp)
    · exact hm
  next => simp at h

theorem decideKey_matched {cls : List Char → Classification}
    {pkvs : List (List Char × List Char)} {tombs C : List (List Char)}
    {k v ok val : List Char}
    (h : decideKey cls pkvs tombs C k v = .matched ok val) :
    k ∉ tombs ∧ ∃ pv, (ok, pv) ∈ pkvs ∧ val = stickyValue cls k v pv := by
  unfold decideKey at h
  by_cases ht : k ∈ tombs
  · rw [if_pos ht] at h
    simp at h
  · rw [if_neg ht] at h
    refine ⟨ht, ?_⟩
    split at h
    next p hp =>
      have hfind : pkvs.find? (fun p => p.1 = k) = some p := by
        by_cases hc : k ∉ C
        · rwa [if_pos hc] at hp
        · rw [if_neg hc] at hp; exact absurd hp (by simp)
      have hmem : p ∈ pkvs := List.mem_of_find?_eq_some hfind
      have hpk : p.1 = k := by
        have := List.find?_some hfind
        simpa using this
      simp only [Decision.matched.injEq] at h
      obtain ⟨hok, hval⟩ := h
      refine ⟨p.2, ?_, hval.symm⟩
      have hpe : (ok, p.2) = p := by rw [← hok, ← hpk]
      rw [hpe]
      exact hmem
    next hp =>
      split at h
      next b hb =>
        simp only [Decision.matched.injEq] at h
        obtain ⟨hok, hval⟩ := h
        have hbmem : b ∈ pkvs.filter fun p => p.1 ∉ C := bestFuzzy_mem hb
        have hbp : b ∈ pkvs := List.mem_of_mem_filter hbmem
        refine ⟨b.2, ?_, hval.symm⟩
        rw [← hok]
        exact hbp
      next => simp at h

theorem decideKey_fresh {cls : List Char → Classification}
    {pkvs : List (List Char × List Char)} {tombs C : List (List Char)}
    {k v val : List Char}
    (h : decideKey cls pkvs tombs C k v = .fresh val) :
    k ∉ tombs ∧ val = placeholder k v (cls v) := by
  unfold decideKey at h
  by_cases ht : k ∈ tombs
  · rw [if_pos ht] at h
    simp at h
  · rw [if_neg ht] at h
    refine ⟨ht, ?_⟩
    split at h
    next p _ => simp at h
    next =>
      split at h
      next b _ => simp at h
      next =>
        simp only [Decision.fresh.injEq] at h
        exact h.symm

theorem plan_mem (cls : List Char → Classification)
    (pkvs : List (List Char × List Char)) (tombs : List (List Char)) :
    ∀ (srcL : List (List Char × List Char)) (C : List (List Char))
      (x : (List Char × List Char) × Decision),
      x ∈ plan cls pkvs tombs srcL C →
      x.1 ∈ srcL ∧ ∃ C', x.2 = decideKey cls pkvs tombs C' x.1.1 x.1.2 := by
  intro srcL
  induction srcL with
  | nil => intro C x h; simp [plan] at h
  | cons kv rest ih =>
    intro C x h
    simp only [plan] at h
    rcases List.mem_cons.mp h with rfl | hmem
    · exact ⟨List.mem_cons_self _ _, ⟨C, rfl⟩⟩
    · obtain ⟨h1, C', h2⟩ := ih _ x hmem
      exact ⟨List.mem_cons_of_mem _ h1, C', h2⟩

theorem matchedMap_mem {ds : List ((List Char × List Char) × Decision)}
    {ok : List Char} {e : List Char × List Char} (h : (ok, e) ∈ matchedMap ds) :
    ∃ kv, (kv, Decision.matched ok e.2) ∈ ds ∧ e.1 = kv.1 := by
  unfold matchedMap at h
  rw [List.mem_filterMap] at h
  obtain ⟨x, hx, hmap⟩ := h
  split at hmap
  next ok' val heq =>
    simp only [Option.some.injEq, Prod.mk.injEq] at hmap
    obtain ⟨hok, he⟩ := hmap
    refine ⟨x.1, ?_, ?_⟩
    · have hx2 : x.2 = Decision.matched ok e.2 := by
        rw [heq, hok, ← he]
      rw [← hx2]
      exact hx
    · rw [← he]
  next => simp at hmap

theorem freshList_mem {ds : List ((List Char × List Char) × Decision)}
    {k u : List Char} (h : (k, u) ∈ freshList ds) :
    ∃ kv, (kv, Decision.fresh u) ∈ ds ∧ k = kv.1 := by
  unfold freshList at h
  rw [List.mem_filterMap] at h
  obtain ⟨x, hx, hmap⟩ := h
  split at hmap
  next val heq =>
    simp only [Option.some.injEq, Prod.mk.injEq] at hmap
    obtain ⟨hk, hu⟩ := hmap
    refine ⟨x.1, ?_, hk.symm⟩
    have hx2 : x.2 = Decision.fresh u := by rw [heq, hu]
    rw [← hx2]
    exact hx
  next => simp at hmap

theorem collapseLW_keys_nodup (l : List (List Char × List Char)) :
    ((collapseLW l).map fun p => p.1).Nodup := by
  unfold collapseLW
  rw [List.map_map]
  have heq : ((fun p : List Char × List Char => p.1) ∘ fun k => (k, lastVal l k))
      = fun k => k := rfl
  rw [heq]
  simpa using List.nodup_dedup (l.map fun p => p.1)

theorem mem_keys_unique {l : List (List Char × List Char)}
    (hnd : (l.map fun p => p.1).Nodup) {k v1 v2 : List Char}
    (h1 : (k, v1) ∈ l) (h2 : (k, v2) ∈ l) : v1 = v2 := by
  induction l with
  | nil => simp at h1
  | cons a as ih =>
    simp only [List.map_cons, List.nodup_cons] at hnd
    obtain ⟨hna, hnd'⟩ := hnd
    rcases List.mem_cons.mp h1 with ha1 | h1'
    · rcases List.mem_cons.mp h2 with ha2 | h2'
      · exact (Prod.ext_iff.mp (ha1.trans ha2.symm)).2
      · exact absurd (List.mem_map.mpr ⟨(k, v2), h2', by rw [← ha1]⟩) hna
    · rcases List.mem_cons.mp h2 with ha2 | h2'
      · exact absurd (List.mem_map.mpr ⟨(k, v1), h1', by rw [← ha2]⟩) hna
      · exact ih hnd' h1' h2'

theorem placeholder_shaped (k v : List Char) (c : Classification) (hc : c ≠ .Plain) :
    isPlaceholderShaped (placeholder k v c) = true := by
  unfold isPlaceholderShaped
  rw [Bool.and_eq_true]
  cases c with
  | Plain => exact absurd rfl hc
  | Secret =>
    constructor
    · rw [List.isPrefixOf_iff_prefix]
      exact ⟨_, rfl⟩
    · rw [beq_iff_eq]
      show (("<your_".data ++ (k.map Char.toLower ++ ">".data)).getLast? = some '>')
      rw [← List.append_assoc]
      exact List.getLast?_concat _
  | EncryptedAtRest =>
    constructor
    · rw [List.isPrefixOf_iff_prefix]
      exact ⟨_, rfl⟩
    · rw [beq_iff_eq]
      show (("<your_".data ++ (k.map Char.toLower ++ "_encrypted>".data)).getLast?
        = some '>')
      rw [List.getLast?_append, List.getLast?_append]
      rfl


/-! ## Theorems: shared concrete evaluation of the end-to-end run. -/

theorem reconcile_srcC8_eval (d : Int) : reconcile srcC8 none d =
    ⟨[("APP_ENV".data, "development".data),
      ("STRIPE_SECRET_KEY".data, "<your_stripe_secret_key>".data),
      ("DEBUG".data, "true".data)], [], []⟩ := by
  unfold reconcile
  rw [reconcileWith_congr classify (clsOf [("sk_test_51HqK2xJ3yF8gD9nP".data, .Secret)])
    srcC8 none d ?_]
  · rfl
  · intro kv hkv
    have hkv' : kv = ("APP_ENV".data, "development".data)
        ∨ kv = ("STRIPE_SECRET_KEY".data, "sk_test_51HqK2xJ3yF8gD9nP".data)
        ∨ kv = ("DEBUG".data, "true".data) := by
      rw [show collapseLW srcC8.kvs = srcC8.kvs from by decide] at hkv
      simpa [srcC8] using hkv
    rcases hkv' with rfl | rfl | rfl
    · rw [show (("APP_ENV".data, "development".data) : List Char × List Char).2
        = "development".data from rfl]
      rw [classify_plain_short _ (by decide) (by decide) (by decide)]
      rfl
    · rw [show (("STRIPE_SECRET_KEY".data, "sk_test_51HqK2xJ3yF8gD9nP".data)
        : List Char × List Char).2 = "sk_test_51HqK2xJ3yF8gD9nP".data from rfl]
      rw [classify_of_secret_start _ ⟨"sk_".data, by decide, by decide⟩]
      rfl
    · rw [show (("DEBUG".data, "true".data) : List Char × List Char).2
        = "true".data from rfl]
      rw [classify_plain_short _ (by decide) (by decide) (by decide)]
      rfl

/-! ## Theorems: no-leak (C2). -/

/-- C2 (counterexample): the destination already holds the raw secret
verbatim.  The value is `Secret`-classified, the destination override is
not a *different* value — it equals the source value — yet reconcile emits
it unchanged (sticky, because it is not placeholder-shaped), so the
emitted value equals the original source value, contradicting the claim as
stated. -/
theorem C2_counterexample :
    classify "sk_live_ABC".data = .Secret ∧
    lastVal prevC2.kvs "STRIPE_KEY".data = "sk_live_ABC".data ∧
    (reconcile srcC2 (some prevC2) 0).kvs
      = [("STRIPE_KEY".data, "sk_live_ABC".data)] := by
  refine ⟨classify_of_secret_start _ ⟨"sk_".data, by decide, by decide⟩, by decide, ?_⟩
  unfold reconcile
  rw [reconcileWith_congr classify (clsOf [("sk_live_ABC".data, Classification.Secret)])
    srcC2 (some prevC2) 0 ?_]
  · decide
  · intro kv hkv
    have hkv' : kv = ("STRIPE_KEY".data, "sk_live_ABC".data) := by
      rw [show collapseLW srcC2.kvs = srcC2.kvs from by decide] at hkv
      simpa [srcC2] using hkv
    subst hkv'
    rw [show (("STRIPE_KEY".data, "sk_live_ABC".data) : List Char × List Char).2
      = "sk_live_ABC".data from rfl]
    rw [classify_of_secret_start _ ⟨"sk_".data, by decide, by decide⟩]
    rfl

/-- C2 (amended): for a key whose source value is classified `Secret` or
`EncryptedAtRest` and is not itself placeholder-shaped, every value
reconcile emits for it either differs from the source value (the
auto-generated path always emits the freshly computed placeholder) or is a
sticky destination value preserved verbatim — a non-placeholder-shaped
value already present in the previous destination, which may coincide with
the source value. -/
theorem C2_no_leak_amended (source : ParsedFile) (previous : Option ParsedFile)
    (d : Int) (k u v : List Char)
    (hout : (k, u) ∈ (reconcile source previous d).kvs)
    (hsrc : (k, v) ∈ collapseLW source.kvs)
    (hcls : classify v = .Secret ∨ classify v = .EncryptedAtRest)
    (hshape : isPlaceholderShaped v = false) :
    u ≠ v ∨ (isPlaceholderShaped u = false ∧
      ∃ pv, (∃ pk, (pk, pv) ∈ collapseLW (prevOf previous).kvs) ∧ u = pv) := by
  have hclsne : classify v ≠ .Plain := by rcases hcls with h | h <;> simp [h]
  simp only [reconcile, reconcileWith] at hout
  rcases List.mem_append.mp hout with hc | hf
  · unfold carriedOf at hc
    rw [List.mem_filterMap] at hc
    obtain ⟨p, hp, hmap⟩ := hc
    rcases hfind : (matchedMap (planOf classify source previous)).find?
        (fun q => q.1 = p.1) with _ | q
    · rw [hfind] at hmap; simp at hmap
    · rw [hfind] at hmap
      simp only [Option.map_some', Option.some.injEq] at hmap
      have hqm : (q.1, (k, u)) ∈ matchedMap (planOf classify source previous) := by
        rw [← hmap]
        exact List.mem_of_find?_eq_some hfind
      obtain ⟨kv, hds, hke⟩ := matchedMap_mem hqm
      unfold planOf at hds
      obtain ⟨hkvsrc, C', hdec⟩ := plan_mem _ _ _ _ _ _ hds
      dsimp only at hke hkvsrc hdec
      obtain ⟨htomb, pv, hpvmem, hval⟩ := decideKey_matched hdec.symm
      have hkv2 : kv.2 = v := by
        apply mem_keys_unique (collapseLW_keys_nodup source.kvs) _ hsrc
        rw [hke]
        exact hkvsrc
      by_cases hpvsh : isPlaceholderShaped pv = true
      · left
        have hval' : u = placeholder kv.1 kv.2 (classify kv.2) := by
          rw [hval]
          unfold stickyValue
          rw [if_pos hpvsh]
        intro hquv
        have hsh : isPlaceholderShaped u = true := by
          rw [hval', hkv2]
          exact placeholder_shaped _ _ _ hclsne
        rw [hquv, hshape] at hsh
        exact absurd hsh (by simp)
      · right
        have hpv : u = pv := by
          rw [hval]
          unfold stickyValue
          rw [if_neg hpvsh]
        refine ⟨?_, pv, ⟨q.1, hpvmem⟩, hpv⟩
        cases hb : isPlaceholderShaped u with
        | false => rfl
        | true => exact absurd (hpv ▸ hb) hpvsh
  · obtain ⟨kv, hds, hk⟩ := freshList_mem hf
    unfold planOf at hds
    obtain ⟨hkvsrc, C', hdec⟩ := plan_mem _ _ _ _ _ _ hds
    dsimp only at hk hkvsrc hdec
    obtain ⟨htomb, hval⟩ := decideKey_fresh hdec.symm
    have hkv2 : kv.2 = v := by
      apply mem_keys_unique (collapseLW_keys_nodup source.kvs) _ hsrc
      rw [hk]
      exact hkvsrc
    left
    intro hquv
    have hsh : isPlaceholderShaped u = true := by
      rw [hval, hkv2]
      exact placeholder_shaped _ _ _ hclsne
    rw [hquv, hshape] at hsh
    exact absurd hsh (by simp)

/-- Witness for the amended C2 at the end-to-end example: the emitted
`STRIPE_SECRET_KEY` value is the placeholder and differs from the source
secret. -/
theorem C2_no_leak_amended_witness :
    (("STRIPE_SECRET_KEY".data, "<your_stripe_secret_key>".data)
      ∈ (reconcile srcC8 none 0).kvs) ∧
    (("STRIPE_SECRET_KEY".data, "sk_test_51HqK2xJ3yF8gD9nP".data)
      ∈ collapseLW srcC8.kvs) ∧
    (classify "sk_test_51HqK2xJ3yF8gD9nP".data = .Secret
      ∨ classify "sk_test_51HqK2xJ3yF8gD9nP".data = .EncryptedAtRest) ∧
    isPlaceholderShaped "sk_test_51HqK2xJ3yF8gD9nP".data = false ∧
    ("<your_stripe_secret_key>".data ≠ "sk_test_51HqK2xJ3yF8gD9nP".data
      ∨ (isPlaceholderShaped "<your_stripe_secret_key>".data = false ∧
        ∃ pv, (∃ pk, (pk, pv) ∈ collapseLW (prevOf none).kvs)
          ∧ "<your_stripe_secret_key>".data = pv)) := by
  have hout : ("STRIPE_SECRET_KEY".data, "<your_stripe_secret_key>".data)
      ∈ (reconcile srcC8 none 0).kvs := by
    rw [reconcile_srcC8_eval]
    decide
  have hsrc : ("STRIPE_SECRET_KEY".data, "sk_test_51HqK2xJ3yF8gD9nP".data)
      ∈ collapseLW srcC8.kvs := by decide
  have hcls : classify "sk_test_51HqK2xJ3yF8gD9nP".data = .Secret
      ∨ classify "sk_test_51HqK2xJ3yF8gD9nP".data = .EncryptedAtRest :=
    Or.inl (classify_of_secret_start _ ⟨"sk_".data, by decide, by decide⟩)
  have hshape : isPlaceholderShaped "sk_test_51HqK2xJ3yF8gD9nP".data = false := by decide
  exact ⟨hout, hsrc, hcls, hshape,
    C2_no_leak_amended srcC8 none 0 _ _ _ hout hsrc hcls hshape⟩

/-! ## Theorems: rename detection (C4). -/

/-- C4 (counterexample): the normalized LCS similarity of `DB_PASS` and
`DATABASE_PASSWORD` is `7/12` — `DB_PASS` is entirely a subsequence of
`DATABASE_PASSWORD`, so `M = 7` and the normalized value is
`2*7/(7+17)` — which does not exceed the 0.8 threshold, refuting the
claimed rename. -/
theorem C4_counterexample :
    similarity "DB_PASS".data "DATABASE_PASSWORD".data = 7 / 12 ∧
    ¬ (similarity "DB_PASS".data "DATABASE_PASSWORD".data > 8 / 10) := by
  have hs : similarity "DB_PASS".data "DATABASE_PASSWORD".data = mkRat 7 12 := by decide
  have h712 : (mkRat 7 12 : ℚ) = 7 / 12 := by norm_num [mkRat, Rat.normalize]
  refine ⟨hs.trans h712, ?_⟩
  rw [hs, h712]
  norm_num

/-- C4 (amended): since `7/12` is below the threshold there is no rename:
reconciling the source `DATABASE_PASSWORD` (secret value) against the old
`DB_PASS` placeholder emits `DATABASE_PASSWORD` as a fresh entry with the
placeholder logic, drops the `DB_PASS` key/value entry, and graveyards
`DB_PASS` dated today. -/
theorem C4_rename_amended (d : Int) :
    reconcile srcC4 (some prevC4) d
      = ⟨[("DATABASE_PASSWORD".data, "<your_database_password>".data)],
         [("DB_PASS".data, d)], []⟩ := by
  unfold reconcile
  rw [reconcileWith_congr classify (clsOf [("sk_live_p4ss".data, Classification.Secret)])
    srcC4 (some prevC4) d ?_]
  · rfl
  · intro kv hkv
    have hkv' : kv = ("DATABASE_PASSWORD".data, "sk_live_p4ss".data) := by
      rw [show collapseLW srcC4.kvs = srcC4.kvs from by decide] at hkv
      simpa [srcC4] using hkv
    subst hkv'
    rw [show (("DATABASE_PASSWORD".data, "sk_live_p4ss".data) : List Char × List Char).2
      = "sk_live_p4ss".data from rfl]
    rw [classify_of_secret_start _ ⟨"sk_".data, by decide, by decide⟩]
    rfl

/-! ## Theorems: graveyard lifecycle (C5). -/

/-- C5 (counterexample): a graveyard entry only 5 days old is *not*
re-emitted when its key reappears in the source — resurrection clears the
entry (spec section 3) — contradicting the claim that every entry at most
14 days old is re-emitted. -/
theorem C5_counterexample :
    ((5 : Int) - 0 ≤ 14) ∧ (("K".data, (0 : Int)) ∈ prevC5.graveyard) ∧
    (reconcile srcC5 (some prevC5) 5).graveyard = [] := by
  refine ⟨by norm_num, by decide, ?_⟩
  rfl

/-- C5 (amended): every previous key matched neither exactly nor fuzzily
and not tombstoned yields a graveyard entry dated today; an existing entry
more than 14 days old is dropped; an entry at most 14 days old *whose key
does not reappear in the source* is re-emitted (resurrection clears it
otherwise); concretely, an entry created on day 0 is still present when
reconciling on day 13 and absent on day 15. -/
theorem C5_graveyard_amended :
    (∀ (source : ParsedFile) (previous : Option ParsedFile) (d : Int) (pk pv : List Char),
      (pk, pv) ∈ collapseLW (prevOf previous).kvs →
      pk ∉ (matchedMap (planOf classify source previous)).map (fun q => q.1) →
      pk ∉ tombKeysOf (prevOf previous) →
      (pk, d) ∈ (reconcile source previous d).graveyard) ∧
    (∀ (source : ParsedFile) (previous : Option ParsedFile) (d : Int)
      (gk : List Char) (gd : Int),
      (gk, gd) ∈ (prevOf previous).graveyard →
      (d - gd > 14 → (gk, gd) ∉ (reconcile source previous d).graveyard) ∧
      (d - gd ≤ 14 → gk ∉ ((collapseLW source.kvs).map fun q => q.1) →
        (gk, gd) ∈ (reconcile source previous d).graveyard)) ∧
    (("OLD".data, (0 : Int))
      ∈ (reconcile ⟨[], [], []⟩ (some ⟨[], [("OLD".data, 0)], []⟩) 13).graveyard) ∧
    (("OLD".data, (0 : Int))
      ∉ (reconcile ⟨[], [], []⟩ (some ⟨[], [("OLD".data, 0)], []⟩) 15).graveyard) := by
  refine ⟨?_, ?_, by decide, by decide⟩
  · intro source previous d pk pv hmem hncons hntomb
    simp only [reconcile, reconcileWith]
    apply List.mem_append_right
    unfold newGraveOf
    rw [List.mem_filterMap]
    exact ⟨(pk, pv), hmem, by rw [if_pos ⟨hncons, hntomb⟩]⟩
  · intro source previous d gk gd hmem
    constructor
    · intro hgt hin
      simp only [reconcile, reconcileWith] at hin
      rcases List.mem_append.mp hin with hk | hn
      · unfold keptGraveOf at hk
        rw [List.mem_filter] at hk
        have hcond := hk.2
        simp only [decide_eq_true_eq] at hcond
        omega
      · unfold newGraveOf at hn
        rw [List.mem_filterMap] at hn
        obtain ⟨p, hp, hif⟩ := hn
        split_ifs at hif with hc
        simp only [Option.some.injEq, Prod.mk.injEq] at hif
        obtain ⟨_, hdg⟩ := hif
        omega
    · intro hle hnot
      simp only [reconcile, reconcileWith]
      apply List.mem_append_left
      unfold keptGraveOf
      rw [List.mem_filter]
      exact ⟨hmem, decide_eq_true ⟨hle, hnot⟩⟩

/-- Witness for the amended C5: `OLD` (present in the destination, matched
by nothing, untombstoned) is graveyarded dated today, and the 3-day-old
entry `G` is re-emitted. -/
theorem C5_graveyard_amended_witness :
    (("OLD".data, "v".data) ∈ collapseLW (prevOf (some prevC5W)).kvs) ∧
    ("OLD".data ∉ (matchedMap (planOf classify ⟨[], [], []⟩ (some prevC5W))).map
      fun q => q.1) ∧
    ("OLD".data ∉ tombKeysOf (prevOf (some prevC5W))) ∧
    (("OLD".data, (3 : Int)) ∈ (reconcile ⟨[], [], []⟩ (some prevC5W) 3).graveyard) ∧
    (((3 : Int) - 0 ≤ 14) ∧
      ("G".data, (0 : Int)) ∈ (reconcile ⟨[], [], []⟩ (some prevC5W) 3).graveyard) := by
  have h1 : ("OLD".data, "v".data) ∈ collapseLW (prevOf (some prevC5W)).kvs := by decide
  have h2 : "OLD".data ∉ (matchedMap (planOf classify ⟨[], [], []⟩ (some prevC5W))).map
      fun q => q.1 := by decide
  have h3 : "OLD".data ∉ tombKeysOf (prevOf (some prevC5W)) := by decide
  refine ⟨h1, h2, h3, C5_graveyard_amended.1 _ _ 3 _ "v".data h1 h2 h3, by norm_num, ?_⟩
  exact (C5_graveyard_amended.2.1 ⟨[], [], []⟩ (some prevC5W) 3 "G".data 0
    (by decide)).2 (by norm_num) (by decide)

/-! ## Theorems: tombstones block resurrection (C6). -/

/-- C6: a key carrying a tombstone in the destination never reappears as a
key/value entry in the reconcile output, even when present in the source
(it is silently omitted), and the tombstone records are re-emitted
verbatim — they never expire, so this holds for every subsequent run. -/
theorem C6_tombstone (source : ParsedFile) (previous : Option ParsedFile) (d : Int)
    (k : List Char) (hk : k ∈ tombKeysOf (prevOf previous)) :
    (∀ u, (k, u) ∉ (reconcile source previous d).kvs) ∧
    (reconcile source previous d).tombstones = (prevOf previous).tombstones := by
  constructor
  · intro u hmem
    simp only [reconcile, reconcileWith] at hmem
    rcases List.mem_append.mp hmem with hc | hf
    · unfold carriedOf at hc
      rw [List.mem_filterMap] at hc
      obtain ⟨p, hp, hmap⟩ := hc
      rcases hfind : (matchedMap (planOf classify source previous)).find?
          (fun q => q.1 = p.1) with _ | q
      · rw [hfind] at hmap; simp at hmap
      · rw [hfind] at hmap
        simp only [Option.map_some', Option.some.injEq] at hmap
        have hqm : (q.1, (k, u)) ∈ matchedMap (planOf classify source previous) := by
          rw [← hmap]
          exact List.mem_of_find?_eq_some hfind
        obtain ⟨kv, hds, hke⟩ := matchedMap_mem hqm
        unfold planOf at hds
        obtain ⟨_, C', hdec⟩ := plan_mem _ _ _ _ _ _ hds
        dsimp only at hke hdec
        obtain ⟨htomb, _⟩ := decideKey_matched hdec.symm
        exact htomb (hke ▸ hk)
    · obtain ⟨kv, hds, hke⟩ := freshList_mem hf
      unfold planOf at hds
      obtain ⟨_, C', hdec⟩ := plan_mem _ _ _ _ _ _ hds
      dsimp only at hke hdec
      obtain ⟨htomb, _⟩ := decideKey_fresh hdec.symm
      exact htomb (hke ▸ hk)
  · rfl

/-- Witness for C6: the tombstoned key `K` reappears in the source and is
silently omitted while its tombstone is re-emitted. -/
theorem C6_tombstone_witness :
    ("K".data ∈ tombKeysOf (prevOf (some prevC6))) ∧
    (("K".data, "v".data) ∉ (reconcile srcC6 (some prevC6) 0).kvs) ∧
    ((reconcile srcC6 (some prevC6) 0).tombstones = [("K".data, (0 : Int))]) := by
  have h := C6_tombstone srcC6 (some prevC6) 0 "K".data (by decide)
  exact ⟨by decide, h.1 _, h.2⟩


/-! ## Theorems: toolkit for the idempotence proof. -/

theorem mem_fst_unique {α β : Type} {l : List (α × β)}
    (hnd : (l.map fun p => p.1).Nodup) {a : α} {b1 b2 : β}
    (h1 : (a, b1) ∈ l) (h2 : (a, b2) ∈ l) : b1 = b2 := by
  induction l with
  | nil => simp at h1
  | cons x xs ih =>
    simp only [List.map_cons, List.nodup_cons] at hnd
    obtain ⟨hna, hnd'⟩ := hnd
    rcases List.mem_cons.mp h1 with hx1 | h1'
    · rcases List.mem_cons.mp h2 with hx2 | h2'
      · exact (Prod.ext_iff.mp (hx1.trans hx2.symm)).2
      · exact absurd (List.mem_map.mpr ⟨(a, b2), h2', by rw [← hx1]⟩) hna
    · rcases List.mem_cons.mp h2 with hx2 | h2'
      · exact absurd (List.mem_map.mpr ⟨(a, b1), h1', by rw [← hx2]⟩) hna
      · exact ih hnd' h1' h2'

theorem filterMap_eq_self_of {α : Type} {l : List α} {f : α → Option α}
    (h : ∀ x ∈ l, f x = some x) : l.filterMap f = l := by
  induction l with
  | nil => rfl
  | cons a as ih =>
    rw [List.filterMap_cons, h a (List.mem_cons_self _ _),
      ih fun x hx => h x (List.mem_cons_of_mem _ hx)]

theorem filterMap_eq_nil_of {α β : Type} {l : List α} {f : α → Option β}
    (h : ∀ x ∈ l, f x = none) : l.filterMap f = [] := by
  induction l with
  | nil => rfl
  | cons a as ih =>
    rw [List.filterMap_cons, h a (List.mem_cons_self _ _),
      ih fun x hx => h x (List.mem_cons_of_mem _ hx)]

theorem find?_assoc {α β : Type} [DecidableEq α] {l : List (α × β)}
    (hnd : (l.map fun p => p.1).Nodup) {k : α} {b : β} (h : (k, b) ∈ l) :
    l.find? (fun p => p.1 = k) = some (k, b) := by
  induction l with
  | nil => simp at h
  | cons x xs ih =>
    simp only [List.map_cons, List.nodup_cons] at hnd
    obtain ⟨hna, hnd'⟩ := hnd
    rcases List.mem_cons.mp h with hx | h'
    · rw [List.find?_cons_of_pos]
      · rw [hx]
      · simp [← hx]
    · rw [List.find?_cons_of_neg]
      · exact ih hnd' h'
      · have hk : k ∈ xs.map fun p => p.1 := List.mem_map.mpr ⟨(k, b), h', rfl⟩
        simp only [decide_eq_true_eq]
        intro hx1
        exact hna (hx1 ▸ hk)

theorem lastVal_of_mem_nodup {l : List (List Char × List Char)}
    (hnd : (l.map fun p => p.1).Nodup) {k u : List Char} (h : (k, u) ∈ l) :
    lastVal l k = u := by
  induction l with
  | nil => simp at h
  | cons x xs ih =>
    simp only [List.map_cons, List.nodup_cons] at hnd
    obtain ⟨hna, hnd'⟩ := hnd
    rcases List.mem_cons.mp h with hx | h'
    · have hxs : ∀ p ∈ xs, ¬ (p.1 = k) := by
        intro p hp hpk
        apply hna
        have hx1 : x.1 = k := by rw [← hx]
        rw [hx1]
        exact List.mem_map.mpr ⟨p, hp, hpk⟩
      unfold lastVal
      rw [List.filter_cons_of_pos (by simp [← hx]),
        List.filter_eq_nil_iff.mpr (by simpa using hxs)]
      simp [← hx]
    · have hxk : ¬ (x.1 = k) := by
        intro hxe
        exact hna (hxe ▸ List.mem_map.mpr ⟨(k, u), h', rfl⟩)
      unfold lastVal at ih ⊢
      rw [List.filter_cons_of_neg (by simpa using hxk)]
      exact ih hnd' h'

theorem collapseLW_self : ∀ l : List (List Char × List Char),
    (l.map fun p => p.1).Nodup → collapseLW l = l := by
  intro l
  induction l with
  | nil => intro _; rfl
  | cons p rest ih =>
    intro hnd
    have hnd' := hnd
    simp only [List.map_cons, List.nodup_cons] at hnd'
    obtain ⟨hna, hndr⟩ := hnd'
    unfold collapseLW
    rw [List.map_cons, List.dedup_cons_of_not_mem hna,
      List.dedup_eq_self.mpr hndr, List.map_cons]
    have hhead : lastVal (p :: rest) p.1 = p.2 :=
      lastVal_of_mem_nodup hnd (List.mem_cons_self _ _)
    rw [hhead]
    have htail : (rest.map fun q => q.1).map (fun k => (k, lastVal (p :: rest) k))
        = (rest.map fun q => q.1).map (fun k => (k, lastVal rest k)) := by
      apply List.map_congr_left
      intro k hk
      have hpk : ¬ (p.1 = k) := by
        intro hpe
        exact hna (hpe ▸ hk)
      unfold lastVal
      rw [List.filter_cons_of_neg (by simpa using hpk)]
    rw [htail]
    have := ih hndr
    unfold collapseLW at this
    rw [List.dedup_eq_self.mpr hndr] at this
    rw [this]


theorem plan_fst (cls : List Char → Classification)
    (pkvs : List (List Char × List Char)) (tombs : List (List Char)) :
    ∀ (srcL : List (List Char × List Char)) (C : List (List Char)),
      ((plan cls pkvs tombs srcL C).map fun x => x.1) = srcL := by
  intro srcL
  induction srcL with
  | nil => intro C; rfl
  | cons kv rest ih =>
    intro C
    simp only [plan, List.map_cons]
    rw [ih]

theorem plan_cover (cls : List Char → Classification)
    (pkvs : List (List Char × List Char)) (tombs : List (List Char))
    (srcL : List (List Char × List Char)) (C : List (List Char))
    (kv : List Char × List Char) (h : kv ∈ srcL) :
    ∃ dcs, (kv, dcs) ∈ plan cls pkvs tombs srcL C := by
  have : kv ∈ (plan cls pkvs tombs srcL C).map fun x => x.1 := by
    rw [plan_fst]
    exact h
  obtain ⟨x, hx, hx1⟩ := List.mem_map.mp this
  exact ⟨x.2, by rw [← hx1]; exact hx⟩

theorem decideKey_skip {cls : List Char → Classification}
    {pkvs : List (List Char × List Char)} {tombs C : List (List Char)}
    {k v : List Char} (h : decideKey cls pkvs tombs C k v = .skip) :
    k ∈ tombs := by
  by_contra ht
  unfold decideKey at h
  rw [if_neg ht] at h
  split at h
  · simp at h
  · split at h <;> simp at h

theorem decideKey_exact {cls : List Char → Classification}
    {pkvs : List (List Char × List Char)} {tombs C : List (List Char)}
    {k v u : List Char} (hts : k ∉ tombs) (hC : k ∉ C)
    (hnd : (pkvs.map fun p => p.1).Nodup) (hku : (k, u) ∈ pkvs) :
    decideKey cls pkvs tombs C k v = .matched k (stickyValue cls k v u) := by
  unfold decideKey
  rw [if_neg hts, if_pos hC, find?_assoc hnd hku]

theorem decideKey_matched_ok_not_consumed {cls : List Char → Classification}
    {pkvs : List (List Char × List Char)} {tombs C : List (List Char)}
    {k v ok val : List Char}
    (h : decideKey cls pkvs tombs C k v = .matched ok val) : ok ∉ C := by
  unfold decideKey at h
  by_cases ht : k ∈ tombs
  · rw [if_pos ht] at h
    simp at h
  · rw [if_neg ht] at h
    split at h
    next p hp =>
      simp only [Decision.matched.injEq] at h
      obtain ⟨hok, _⟩ := h
      by_cases hc : k ∉ C
      · exact hok ▸ hc
      · rw [if_neg hc] at hp
        simp at hp
    next hp =>
      split at h
      next b hb =>
        simp only [Decision.matched.injEq] at h
        obtain ⟨hok, _⟩ := h
        have hbmem := bestFuzzy_mem hb
        rw [List.mem_filter] at hbmem
        have hbc := hbmem.2
        simp only [decide_eq_true_eq] at hbc
        exact hok ▸ hbc
      next => simp at h

theorem matchedMap_of_mem {ds : List ((List Char × List Char) × Decision)}
    {kv : List Char × List Char} {ok val : List Char}
    (h : (kv, Decision.matched ok val) ∈ ds) :
    (ok, (kv.1, val)) ∈ matchedMap ds := by
  unfold matchedMap
  rw [List.mem_filterMap]
  exact ⟨(kv, Decision.matched ok val), h, rfl⟩

theorem freshList_of_mem {ds : List ((List Char × List Char) × Decision)}
    {kv : List Char × List Char} {val : List Char}
    (h : (kv, Decision.fresh val) ∈ ds) : (kv.1, val) ∈ freshList ds := by
  unfold freshList
  rw [List.mem_filterMap]
  exact ⟨(kv, Decision.fresh val), h, rfl⟩

theorem matchedMap_srckeys_sublist :
    ∀ ds : List ((List Char × List Char) × Decision),
      List.Sublist ((matchedMap ds).map fun q => q.2.1) (ds.map fun x => x.1.1) := by
  intro ds
  induction ds with
  | nil => simp [matchedMap]
  | cons x rest ih =>
    obtain ⟨kv, dd⟩ := x
    cases dd with
    | skip =>
      have h1 : matchedMap ((kv, Decision.skip) :: rest) = matchedMap rest := rfl
      rw [h1, List.map_cons]
      exact List.Sublist.cons _ ih
    | matched ok val =>
      have h1 : matchedMap ((kv, Decision.matched ok val) :: rest)
          = (ok, (kv.1, val)) :: matchedMap rest := rfl
      rw [h1, List.map_cons, List.map_cons]
      exact List.Sublist.cons₂ _ ih
    | fresh val =>
      have h1 : matchedMap ((kv, Decision.fresh val) :: rest) = matchedMap rest := rfl
      rw [h1, List.map_cons]
      exact List.Sublist.cons _ ih

theorem freshList_keys_sublist :
    ∀ ds : List ((List Char × List Char) × Decision),
      List.Sublist ((freshList ds).map fun q => q.1) (ds.map fun x => x.1.1) := by
  intro ds
  induction ds with
  | nil => simp [freshList]
  | cons x rest ih =>
    obtain ⟨kv, dd⟩ := x
    cases dd with
    | skip =>
      have h1 : freshList ((kv, Decision.skip) :: rest) = freshList rest := rfl
      rw [h1, List.map_cons]
      exact List.Sublist.cons _ ih
    | matched ok val =>
      have h1 : freshList ((kv, Decision.matched ok val) :: rest) = freshList rest := rfl
      rw [h1, List.map_cons]
      exact List.Sublist.cons _ ih
    | fresh val =>
      have h1 : freshList ((kv, Decision.fresh val) :: rest)
          = (kv.1, val) :: freshList rest := rfl
      rw [h1, List.map_cons, List.map_cons]
      exact List.Sublist.cons₂ _ ih

theorem mm_ok_props (cls : List Char → Classification)
    (pkvs : List (List Char × List Char)) (tombs : List (List Char)) :
    ∀ (srcL : List (List Char × List Char)) (C : List (List Char)),
      (∀ ok ∈ (matchedMap (plan cls pkvs tombs srcL C)).map (fun q => q.1), ok ∉ C) ∧
      ((matchedMap (plan cls pkvs tombs srcL C)).map (fun q => q.1)).Nodup := by
  intro srcL
  induction srcL with
  | nil => intro C; simp [plan, matchedMap]
  | cons kv rest ih =>
    intro C
    cases hdec : decideKey cls pkvs tombs C kv.1 kv.2 with
    | skip =>
      have h1 : matchedMap (plan cls pkvs tombs (kv :: rest) C)
          = matchedMap (plan cls pkvs tombs rest C) := by
        simp only [plan, hdec]
        rfl
      rw [h1]
      exact ih C
    | matched ok val =>
      have h1 : matchedMap (plan cls pkvs tombs (kv :: rest) C)
          = (ok, (kv.1, val)) :: matchedMap (plan cls pkvs tombs rest (ok :: C)) := by
        simp only [plan, hdec]
        rfl
      rw [h1, List.map_cons]
      have ihr := ih (ok :: C)
      constructor
      · intro ok' hok'
        rcases List.mem_cons.mp hok' with rfl | hok''
        · exact decideKey_matched_ok_not_consumed hdec
        · intro hC
          exact ihr.1 ok' hok'' (List.mem_cons_of_mem _ hC)
      · rw [List.nodup_cons]
        exact ⟨fun hok => ihr.1 ok hok (List.mem_cons_self _ _), ihr.2⟩
    | fresh val =>
      have h1 : matchedMap (plan cls pkvs tombs (kv :: rest) C)
          = matchedMap (plan cls pkvs tombs rest C) := by
        simp only [plan, hdec]
        rfl
      rw [h1]
      exact ih C

theorem plan_key_consumed (cls : List Char → Classification)
    (pkvs : List (List Char × List Char)) (tombs : List (List Char)) :
    ∀ (srcL : List (List Char × List Char)) (C : List (List Char))
      (k v : List Char), (k, v) ∈ srcL → k ∉ tombs →
      k ∈ (pkvs.map fun p => p.1) →
      k ∈ C ∨ k ∈ (matchedMap (plan cls pkvs tombs srcL C)).map (fun q => q.1) := by
  intro srcL
  induction srcL with
  | nil => intro C k v h; simp at h
  | cons kv rest ih =>
    intro C k v hmem htomb hk
    rcases List.mem_cons.mp hmem with hx | h'
    · by_cases hc : k ∈ C
      · exact Or.inl hc
      · right
        have hk1 : kv.1 = k := by rw [← hx]
        obtain ⟨p, hp, hpk⟩ : ∃ p ∈ pkvs, (fun p => decide (p.1 = k)) p := by
          obtain ⟨x, hx', hx1⟩ := List.mem_map.mp hk
          exact ⟨x, hx', by simpa using hx1⟩
        have hfind : (pkvs.find? fun p => p.1 = k).isSome :=
          List.find?_isSome.mpr ⟨p, hp, hpk⟩
        obtain ⟨q, hq⟩ := Option.isSome_iff_exists.mp hfind
        have hdec : decideKey cls pkvs tombs C kv.1 kv.2
            = .matched kv.1 (stickyValue cls kv.1 kv.2 q.2) := by
          unfold decideKey
          rw [hk1, if_neg htomb, if_pos hc, hq]
        have hhead : (kv, decideKey cls pkvs tombs C kv.1 kv.2)
            ∈ plan cls pkvs tombs (kv :: rest) C := by
          simp only [plan]
          exact List.mem_cons_self _ _
        rw [hdec] at hhead
        have hmm := matchedMap_of_mem hhead
        rw [← hk1]
        exact List.mem_map.mpr ⟨_, hmm, rfl⟩
    · cases hdec : decideKey cls pkvs tombs C kv.1 kv.2 with
      | skip =>
        have h1 : matchedMap (plan cls pkvs tombs (kv :: rest) C)
            = matchedMap (plan cls pkvs tombs rest C) := by
          simp only [plan, hdec]
          rfl
        rw [h1]
        exact ih C k v h' htomb hk
      | matched ok val =>
        have h1 : matchedMap (plan cls pkvs tombs (kv :: rest) C)
            = (ok, (kv.1, val)) :: matchedMap (plan cls pkvs tombs rest (ok :: C)) := by
          simp only [plan, hdec]
          rfl
        rw [h1, List.map_cons]
        rcases ih (ok :: C) k v h' htomb hk with hin | hin
        · rcases List.mem_cons.mp hin with rfl | hC
          · exact Or.inr (List.mem_cons_self _ _)
          · exact Or.inl hC
        · exact Or.inr (List.mem_cons_of_mem _ hin)
      | fresh val =>
        have h1 : matchedMap (plan cls pkvs tombs (kv :: rest) C)
            = matchedMap (plan cls pkvs tombs rest C) := by
          simp only [plan, hdec]
          rfl
        rw [h1]
        exact ih C k v h' htomb hk


/-! ## Theorems: sticky fixed points and the stable-file characterization. -/

theorem sticky_absorb (cls : List Char → Classification) (k v pv : List Char) :
    stickyValue cls k v (stickyValue cls k v pv) = stickyValue cls k v pv := by
  unfold stickyValue
  split_ifs <;> rfl

theorem sticky_of_placeholder (cls : List Char → Classification) (k v : List Char) :
    stickyValue cls k v (placeholder k v (cls v)) = placeholder k v (cls v) := by
  unfold stickyValue
  split_ifs <;> rfl

theorem stable_plan_spec (cls : List Char → Classification)
    (Fkvs : List (List Char × List Char)) (tombs : List (List Char))
    (srcFull : List (List Char × List Char))
    (hnod : (Fkvs.map fun p => p.1).Nodup)
    (hmem : ∀ k v, (k, v) ∈ srcFull → k ∉ tombs → ∃ u, (k, u) ∈ Fkvs)
    (hsticky : ∀ k u v, (k, u) ∈ Fkvs → (k, v) ∈ srcFull →
      stickyValue cls k v u = u) :
    ∀ (srcL : List (List Char × List Char)) (C : List (List Char)),
      (∀ kv ∈ srcL, kv ∈ srcFull) →
      ((srcL.map fun p => p.1).Nodup) →
      (∀ kv ∈ srcL, kv.1 ∉ C) →
      plan cls Fkvs tombs srcL C = srcL.map fun kv =>
        (kv, if kv.1 ∈ tombs then Decision.skip
             else Decision.matched kv.1 (lastVal Fkvs kv.1)) := by
  intro srcL
  induction srcL with
  | nil => intro C _ _ _; rfl
  | cons kv rest ih =>
    intro C hsub hndL hC
    simp only [List.map_cons, List.nodup_cons] at hndL
    obtain ⟨hhd, hndr⟩ := hndL
    by_cases ht : kv.1 ∈ tombs
    · have hd : decideKey cls Fkvs tombs C kv.1 kv.2 = .skip := by
        unfold decideKey
        rw [if_pos ht]
      simp only [plan, hd, List.map_cons, if_pos ht, consumedOf, List.nil_append]
      rw [ih C (fun x hx => hsub x (List.mem_cons_of_mem _ hx)) hndr
        (fun x hx => hC x (List.mem_cons_of_mem _ hx))]
    · obtain ⟨u, hu⟩ := hmem kv.1 kv.2 (hsub kv (List.mem_cons_self _ _)) ht
      have hCk : kv.1 ∉ C := hC kv (List.mem_cons_self _ _)
      have hd : decideKey cls Fkvs tombs C kv.1 kv.2
          = .matched kv.1 (stickyValue cls kv.1 kv.2 u) :=
        decideKey_exact ht hCk hnod hu
      have hst : stickyValue cls kv.1 kv.2 u = u :=
        hsticky kv.1 u kv.2 hu (hsub kv (List.mem_cons_self _ _))
      have hlv : lastVal Fkvs kv.1 = u := lastVal_of_mem_nodup hnod hu
      have hC2 : ∀ x ∈ rest, x.1 ∉ (kv.1 :: C) := by
        intro x hx hmem2
        rcases List.mem_cons.mp hmem2 with hxe | hxC
        · exact hhd (by rw [← hxe]; exact List.mem_map.mpr ⟨x, hx, rfl⟩)
        · exact hC x (List.mem_cons_of_mem _ hx) hxC
      simp only [plan, hd, hst, List.map_cons, if_neg ht, hlv, consumedOf,
        List.singleton_append]
      rw [ih (kv.1 :: C) (fun x hx => hsub x (List.mem_cons_of_mem _ hx)) hndr hC2]

theorem carried_mem_inv {cls : List Char → Classification} {source : ParsedFile}
    {previous : Option ParsedFile} {k u : List Char}
    (h : (k, u) ∈ carriedOf cls source previous) :
    ∃ kv ok, (kv, Decision.matched ok u) ∈ planOf cls source previous ∧ k = kv.1 := by
  unfold carriedOf at h
  rw [List.mem_filterMap] at h
  obtain ⟨p, hp, hmap⟩ := h
  rw [Option.map_eq_some'] at hmap
  obtain ⟨q, hq, hq2⟩ := hmap
  have hqmem : q ∈ matchedMap (planOf cls source previous) :=
    List.mem_of_find?_eq_some hq
  have hqm : (q.1, (k, u)) ∈ matchedMap (planOf cls source previous) := by
    rw [← hq2]
    exact hqmem
  obtain ⟨kv, hkv, hk1⟩ := matchedMap_mem hqm
  exact ⟨kv, q.1, hkv, hk1⟩

theorem carried_keys_nodup {mm : List (List Char × (List Char × List Char))}
    (hmmnd : (mm.map fun q => q.1).Nodup)
    (hmmsrc : (mm.map fun q => q.2.1).Nodup) :
    ∀ pk : List (List Char × List Char), ((pk.map fun p => p.1).Nodup) →
    ((pk.filterMap fun p => (mm.find? fun q => q.1 = p.1).map fun q => q.2).map
      fun e => e.1).Nodup := by
  intro pk
  induction pk with
  | nil => intro _; simp
  | cons p rest ih =>
    intro hnd
    simp only [List.map_cons, List.nodup_cons] at hnd
    obtain ⟨hp1, hndr⟩ := hnd
    rw [List.filterMap_cons]
    cases hfq : (mm.find? fun q => q.1 = p.1).map fun q => q.2 with
    | none => exact ih hndr
    | some e =>
      rw [List.map_cons, List.nodup_cons]
      refine ⟨?_, ih hndr⟩
      intro hmem
      rw [List.mem_map] at hmem
      obtain ⟨e2, he2, he1⟩ := hmem
      rw [List.mem_filterMap] at he2
      obtain ⟨p2, hp2, hfq2⟩ := he2
      rw [Option.map_eq_some'] at hfq hfq2
      obtain ⟨q, hq, hq2⟩ := hfq
      obtain ⟨q2, hq3, hq4⟩ := hfq2
      have hqm := List.mem_of_find?_eq_some hq
      have hqm2 := List.mem_of_find?_eq_some hq3
      have hkey : q.2.1 = q2.2.1 := by
        rw [hq2, hq4, he1]
      have hqq : q = q2 := List.inj_on_of_nodup_map hmmsrc hqm hqm2 hkey
      have hpq : q.1 = p.1 := by simpa using List.find?_some hq
      have hpq2 : q2.1 = p2.1 := by simpa using List.find?_some hq3
      apply hp1
      rw [← hpq, hqq, hpq2]
      exact List.mem_map.mpr ⟨p2, hp2, rfl⟩


/-! ## Theorems: reconciliation is the identity on stable files (lemma A). -/

theorem reconcileWith_fix (cls : List Char → Classification) (source : ParsedFile)
    (d : Int) (F : ParsedFile) (hS : Stable cls (collapseLW source.kvs) d F) :
    reconcileWith cls source (some F) d = F := by
  obtain ⟨hnod, hiff, hsticky, hgrave⟩ := hS
  have hprev : prevOf (some F) = F := rfl
  have hcol : collapseLW F.kvs = F.kvs := collapseLW_self F.kvs hnod
  have hplan : planOf cls source (some F)
      = (collapseLW source.kvs).map (fun kv =>
          (kv, if kv.1 ∈ tombKeysOf F then Decision.skip
               else Decision.matched kv.1 (lastVal F.kvs kv.1))) := by
    unfold planOf
    rw [hprev, hcol]
    exact stable_plan_spec cls F.kvs (tombKeysOf F) (collapseLW source.kvs) hnod
      (fun k v hkv ht => (hiff k).mpr ⟨⟨v, hkv⟩, ht⟩)
      (fun k u v hu hv => hsticky k u v hu hv)
      (collapseLW source.kvs) []
      (fun kv hkv => hkv) (collapseLW_keys_nodup _) (fun kv _ => List.not_mem_nil _)
  have hmmnd : ((matchedMap (planOf cls source (some F))).map fun q => q.1).Nodup := by
    unfold planOf
    rw [hprev, hcol]
    exact (mm_ok_props cls F.kvs (tombKeysOf F) (collapseLW source.kvs) []).2
  have hmm_self : ∀ p ∈ F.kvs, (p.1, p) ∈ matchedMap (planOf cls source (some F)) := by
    intro p hp
    obtain ⟨⟨v, hv⟩, ht⟩ := (hiff p.1).mp ⟨p.2, hp⟩
    have helt : ((p.1, v), Decision.matched p.1 (lastVal F.kvs p.1))
        ∈ planOf cls source (some F) := by
      rw [hplan]
      refine List.mem_map.mpr ⟨(p.1, v), hv, ?_⟩
      show ((p.1, v), if p.1 ∈ tombKeysOf F then Decision.skip
          else Decision.matched p.1 (lastVal F.kvs p.1))
        = ((p.1, v), Decision.matched p.1 (lastVal F.kvs p.1))
      rw [if_neg ht]
    have hlv : lastVal F.kvs p.1 = p.2 := lastVal_of_mem_nodup hnod hp
    have hr := matchedMap_of_mem helt
    rw [hlv] at hr
    exact hr
  have hcar : carriedOf cls source (some F) = F.kvs := by
    unfold carriedOf
    rw [hprev, hcol]
    apply filterMap_eq_self_of
    intro p hp
    have hfind := find?_assoc hmmnd (hmm_self p hp)
    rw [hfind]
    rfl
  have hfresh : freshList (planOf cls source (some F)) = [] := by
    cases hfl : freshList (planOf cls source (some F)) with
    | nil => rfl
    | cons a rest =>
      exfalso
      have ha : (a.1, a.2) ∈ freshList (planOf cls source (some F)) := by
        rw [hfl]
        exact List.mem_cons_self _ _
      obtain ⟨kv, hkv, _⟩ := freshList_mem ha
      rw [hplan] at hkv
      obtain ⟨b, hb, hbe⟩ := List.mem_map.mp hkv
      have hb2 : (if b.1 ∈ tombKeysOf F then Decision.skip
          else Decision.matched b.1 (lastVal F.kvs b.1)) = Decision.fresh a.2 :=
        congrArg Prod.snd hbe
      by_cases hbt : b.1 ∈ tombKeysOf F
      · rw [if_pos hbt] at hb2
        simp at hb2
      · rw [if_neg hbt] at hb2
        simp at hb2
  have hnewg : newGraveOf cls source (some F) d = [] := by
    unfold newGraveOf
    rw [hprev, hcol]
    apply filterMap_eq_nil_of
    intro p hp
    have hin : p.1 ∈ (matchedMap (planOf cls source (some F))).map fun q => q.1 :=
      List.mem_map.mpr ⟨(p.1, p), hmm_self p hp, rfl⟩
    rw [if_neg (fun hcond => hcond.1 hin)]
  have hkept : keptGraveOf source (some F) d = F.graveyard := by
    unfold keptGraveOf
    rw [hprev]
    apply List.filter_eq_self.mpr
    intro g hg
    simp only [decide_eq_true_eq]
    exact hgrave g hg
  show (⟨carriedOf cls source (some F) ++ freshList (planOf cls source (some F)),
      keptGraveOf source (some F) d ++ newGraveOf cls source (some F) d,
      (prevOf (some F)).tombstones⟩ : ParsedFile) = F
  rw [hcar, hfresh, hnewg, hkept, List.append_nil, List.append_nil, hprev]


/-! ## Theorems: the reconciler output is stable (lemma B). -/

theorem reconcileWith_stable (cls : List Char → Classification) (source : ParsedFile)
    (previous : Option ParsedFile) (d : Int) :
    Stable cls (collapseLW source.kvs) d (reconcileWith cls source previous d) := by
  have hpk_nd : ((collapseLW (prevOf previous).kvs).map fun p => p.1).Nodup :=
    collapseLW_keys_nodup _
  have hsrc_nd : ((collapseLW source.kvs).map fun p => p.1).Nodup :=
    collapseLW_keys_nodup _
  have hds_fst : ((planOf cls source previous).map fun x => x.1)
      = collapseLW source.kvs :=
    plan_fst cls (collapseLW (prevOf previous).kvs) (tombKeysOf (prevOf previous))
      (collapseLW source.kvs) []
  have hsrck_nd : ((planOf cls source previous).map fun x => x.1.1).Nodup := by
    have hcomp : ((planOf cls source previous).map fun x => x.1.1)
        = (((planOf cls source previous).map fun x => x.1).map fun p => p.1) := by
      rw [List.map_map]
      rfl
    rw [hcomp, hds_fst]
    exact hsrc_nd
  have hmm_nd : ((matchedMap (planOf cls source previous)).map fun q => q.1).Nodup :=
    (mm_ok_props cls (collapseLW (prevOf previous).kvs) (tombKeysOf (prevOf previous))
      (collapseLW source.kvs) []).2
  have hmm_src_nd : ((matchedMap (planOf cls source previous)).map
      fun q => q.2.1).Nodup :=
    List.Nodup.sublist (matchedMap_srckeys_sublist _) hsrck_nd
  have hfl_nd : ((freshList (planOf cls source previous)).map fun q => q.1).Nodup :=
    List.Nodup.sublist (freshList_keys_sublist _) hsrck_nd
  have hdisj : ∀ a ∈ (carriedOf cls source previous).map fun p => p.1,
      a ∉ (freshList (planOf cls source previous)).map fun p => p.1 := by
    intro a ha hfa
    rw [List.mem_map] at ha hfa
    obtain ⟨e, he, he1⟩ := ha
    obtain ⟨f0, hf0, hf1⟩ := hfa
    have he2 : (e.1, e.2) ∈ carriedOf cls source previous := he
    have hf2 : (f0.1, f0.2) ∈ freshList (planOf cls source previous) := hf0
    obtain ⟨kv, ok, hkv, hk1⟩ := carried_mem_inv he2
    obtain ⟨kv2, hkv2, hk12⟩ := freshList_mem hf2
    have hkk : (kv, Decision.matched ok e.2).1.1 = (kv2, Decision.fresh f0.2).1.1 := by
      show kv.1 = kv2.1
      rw [← hk1, ← hk12, he1, hf1]
    have heq := List.inj_on_of_nodup_map hsrck_nd hkv hkv2 hkk
    simp at heq
  refine ⟨?_, ?_, ?_, ?_⟩
  · show ((carriedOf cls source previous
        ++ freshList (planOf cls source previous)).map fun p => p.1).Nodup
    rw [List.map_append, List.nodup_append]
    refine ⟨?_, hfl_nd, fun a ha hb => hdisj a ha hb⟩
    exact carried_keys_nodup hmm_nd hmm_src_nd (collapseLW (prevOf previous).kvs) hpk_nd
  · intro k
    constructor
    · rintro ⟨u, hu⟩
      have hu2 : (k, u) ∈ carriedOf cls source previous
          ++ freshList (planOf cls source previous) := hu
      rw [List.mem_append] at hu2
      rcases hu2 with hc | hf
      · obtain ⟨kv, ok, hkv, hk1⟩ := carried_mem_inv hc
        obtain ⟨hkvsrc, C2, hdk⟩ := plan_mem cls _ _ _ _ _ hkv
        obtain ⟨htomb, pv, hpv, hval⟩ := decideKey_matched hdk.symm
        refine ⟨⟨kv.2, ?_⟩, ?_⟩
        · rw [hk1]
          exact hkvsrc
        · rw [hk1]
          exact htomb
      · obtain ⟨kv2, hkv2, hk12⟩ := freshList_mem hf
        obtain ⟨hkvsrc, C2, hdk⟩ := plan_mem cls _ _ _ _ _ hkv2
        obtain ⟨htomb, _⟩ := decideKey_fresh hdk.symm
        refine ⟨⟨kv2.2, ?_⟩, ?_⟩
        · rw [hk12]
          exact hkvsrc
        · rw [hk12]
          exact htomb
    · rintro ⟨⟨v, hv⟩, ht⟩
      have ht2 : k ∉ tombKeysOf (prevOf previous) := ht
      obtain ⟨dcs, hdcs⟩ := plan_cover cls (collapseLW (prevOf previous).kvs)
        (tombKeysOf (prevOf previous)) (collapseLW source.kvs) [] (k, v) hv
      obtain ⟨hmem2, C2, hdk⟩ := plan_mem cls _ _ _ _ _ hdcs
      cases hd : decideKey cls (collapseLW (prevOf previous).kvs)
          (tombKeysOf (prevOf previous)) C2 k v with
      | skip =>
        exact absurd (decideKey_skip hd) ht2
      | matched ok val =>
        have hde : dcs = Decision.matched ok val := by
          rw [← hd]
          exact hdk
        have helt : ((k, v), Decision.matched ok val)
            ∈ planOf cls source previous := by
          rw [← hde]
          exact hdcs
        have hmmmem := matchedMap_of_mem helt
        obtain ⟨_, pv, hpv, _⟩ := decideKey_matched hd
        have hfind := find?_assoc hmm_nd hmmmem
        refine ⟨val, ?_⟩
        show (k, val) ∈ carriedOf cls source previous
          ++ freshList (planOf cls source previous)
        rw [List.mem_append]
        left
        unfold carriedOf
        rw [List.mem_filterMap]
        refine ⟨(ok, pv), hpv, ?_⟩
        have hpe : ((matchedMap (planOf cls source previous)).find? fun q =>
            q.1 = (ok, pv).1) = some (ok, ((k, v).1, val)) := hfind
        rw [hpe]
        rfl
      | fresh val =>
        have hde : dcs = Decision.fresh val := by
          rw [← hd]
          exact hdk
        have helt : ((k, v), Decision.fresh val) ∈ planOf cls source previous := by
          rw [← hde]
          exact hdcs
        have hflmem := freshList_of_mem helt
        refine ⟨val, ?_⟩
        show (k, val) ∈ carriedOf cls source previous
          ++ freshList (planOf cls source previous)
        rw [List.mem_append]
        right
        exact hflmem
  · intro k u v hu hv
    have hu2 : (k, u) ∈ carriedOf cls source previous
        ++ freshList (planOf cls source previous) := hu
    rw [List.mem_append] at hu2
    rcases hu2 with hc | hf
    · obtain ⟨kv, ok, hkv, hk1⟩ := carried_mem_inv hc
      obtain ⟨hkvsrc, C2, hdk⟩ := plan_mem cls _ _ _ _ _ hkv
      obtain ⟨htomb, pv, hpv, hval⟩ := decideKey_matched hdk.symm
      have h1 : (k, kv.2) ∈ collapseLW source.kvs := by
        rw [hk1]
        exact hkvsrc
      have hkv2 : kv.2 = v := mem_keys_unique hsrc_nd h1 hv
      rw [hval, hk1, ← hkv2]
      exact sticky_absorb cls kv.1 kv.2 pv
    · obtain ⟨kv2, hkv2, hk12⟩ := freshList_mem hf
      obtain ⟨hkvsrc, C2, hdk⟩ := plan_mem cls _ _ _ _ _ hkv2
      obtain ⟨htomb, hval⟩ := decideKey_fresh hdk.symm
      have h1 : (k, kv2.2) ∈ collapseLW source.kvs := by
        rw [hk12]
        exact hkvsrc
      have hkv22 : kv2.2 = v := mem_keys_unique hsrc_nd h1 hv
      rw [hval, hk12, ← hkv22]
      exact sticky_of_placeholder cls kv2.1 kv2.2
  · intro g hg
    have hg2 : g ∈ keptGraveOf source previous d
        ++ newGraveOf cls source previous d := hg
    rw [List.mem_append] at hg2
    rcases hg2 with hk | hn
    · unfold keptGraveOf at hk
      rw [List.mem_filter] at hk
      have hcond := hk.2
      simp only [decide_eq_true_eq] at hcond
      exact hcond
    · unfold newGraveOf at hn
      rw [List.mem_filterMap] at hn
      obtain ⟨p, hp, hif⟩ := hn
      split_ifs at hif with hcond
      · rw [Option.some.injEq] at hif
        subst hif
        refine ⟨by show d - d ≤ 14; omega, ?_⟩
        intro hsrc
        obtain ⟨kv0, hkv0, hkk⟩ := List.mem_map.mp hsrc
        have hkk2 : kv0.1 = p.1 := hkk
        have hsrcmem : (p.1, kv0.2) ∈ collapseLW source.kvs := by
          rw [← hkk2]
          exact hkv0
        have hpk : p.1 ∈ (collapseLW (prevOf previous).kvs).map fun q => q.1 :=
          List.mem_map.mpr ⟨p, hp, rfl⟩
        rcases plan_key_consumed cls (collapseLW (prevOf previous).kvs)
            (tombKeysOf (prevOf previous)) (collapseLW source.kvs) []
            p.1 kv0.2 hsrcmem hcond.2 hpk with h0 | hm
        · simp at h0
        · exact hcond.1 hm



/-! ## Theorems: claim C3. -/

/-- C3: reconciliation is idempotent: for every source, previous destination
and date d, reconciling a second time against the output of the first run
(with the source and the date unchanged) reproduces that output exactly —
running the sync twice with no change to the private file produces no
further change. -/
theorem C3_idempotent (source : ParsedFile) (previous : Option ParsedFile) (d : Int) :
    reconcile source (some (reconcile source previous d)) d
      = reconcile source previous d := by
  unfold reconcile
  exact reconcileWith_fix classify source d (reconcileWith classify source previous d)
    (reconcileWith_stable classify source previous d)


end CoEnv
